import Mathlib

/-!
Verification of the flash-attention forward kernels in
`csrc/flash_attn/src/flash_fwd_kernel.h` against their natural-language
specification.

The development models:
* the integer tile-range / pointer arithmetic exactly as written in the
  source (C++ `/` on `int` is truncating division, `Int.tdiv`);
* the per-row online-softmax computation of the dense and split kernels in
  exact real arithmetic, and the split-combine reduction kernel;
* the paged-KV addressing, the KV-cache append loop and the grouped-query
  head mapping.

Collaborator headers (`softmax.h`, `mask.h`, `block_info.h`, `rotary.h`,
`utils.h`) are not part of the source tree under verification; where their
behaviour is needed it is modelled from the specification text, and each
such definition is marked `Modelled from the spec:` in its doc comment.
-/

namespace FlashSpec

/-! ### Integer division helpers

C++ `/` on `int` truncates toward zero, which is `Int.tdiv`.
`cute::ceil_div(a, b)` is `(a + b - 1) / b` with that division. -/

/-- `cute::ceil_div` as used by the kernels: `(a + b - 1) / b` with C++
truncating division. -/
def ceil_div (a b : ℤ) : ℤ := (a + b - 1).tdiv b

/-- Mathematical ceiling `⌈a / b⌉` for `b > 0`, via floor division. -/
def iceil (a b : ℤ) : ℤ := (a + b - 1).fdiv b

/-! ### Dense kernel K/V tile range (source lines 75–83) -/

/-- `n_block_min` of `compute_attn_1rowblock` (source line 75):
`!Is_local ? 0 : std::max(0, (m_block * kBlockM + actual_seqlen_k -
actual_seqlen_q - params.window_size_left) / kBlockN)`. -/
def n_block_min_dense (Is_local : Bool) (kBlockM kBlockN m_block seqlen_q seqlen_k window_left : ℤ) : ℤ :=
  if Is_local then
    max 0 ((m_block * kBlockM + seqlen_k - seqlen_q - window_left).tdiv kBlockN)
  else 0

/-- `n_block_max` of `compute_attn_1rowblock` (source lines 76–83):
`ceil_div(actual_seqlen_k, kBlockN)`, clamped when causal or local with
`min(·, ceil_div((m_block+1)*kBlockM + actual_seqlen_k - actual_seqlen_q +
window_size_right, kBlockN))`. -/
def n_block_max_dense (Is_causal Is_local : Bool) (kBlockM kBlockN m_block seqlen_q seqlen_k window_right : ℤ) : ℤ :=
  let n0 := ceil_div seqlen_k kBlockN
  if Is_causal || Is_local then
    min n0 (ceil_div ((m_block + 1) * kBlockM + seqlen_k - seqlen_q + window_right) kBlockN)
  else n0

/-- The claim's `n_block_min` formula: `max(0, ⌊(m_block·Br + seqlen_k −
seqlen_q − window_left)/Bc⌋)` with floor semantics, `0` when not local. -/
def n_block_min_spec (Is_local : Bool) (kBlockM kBlockN m_block seqlen_q seqlen_k window_left : ℤ) : ℤ :=
  if Is_local then
    max 0 ((m_block * kBlockM + seqlen_k - seqlen_q - window_left).fdiv kBlockN)
  else 0

/-- The claim's `n_block_max` formula with mathematical (floor-based)
ceilings: `⌈seqlen_k/Bc⌉`, clamped when causal or local with
`min(·, ⌈((m_block+1)·Br + seqlen_k − seqlen_q + window_right)/Bc⌉)`. -/
def n_block_max_spec (Is_causal Is_local : Bool) (kBlockM kBlockN m_block seqlen_q seqlen_k window_right : ℤ) : ℤ :=
  let n0 := iceil seqlen_k kBlockN
  if Is_causal || Is_local then
    min n0 (iceil ((m_block + 1) * kBlockM + seqlen_k - seqlen_q + window_right) kBlockN)
  else n0

lemma tdiv_eq_fdiv_of_nonneg {a b : ℤ} (ha : 0 ≤ a) (hb : 0 ≤ b) :
    a.tdiv b = a.fdiv b := by
  rw [Int.tdiv_eq_ediv ha hb, Int.fdiv_eq_ediv _ hb]

lemma tdiv_nonpos_of_nonpos {a b : ℤ} (ha : a ≤ 0) (hb : 0 ≤ b) :
    a.tdiv b ≤ 0 := by
  have h : a.tdiv b = -((-a).tdiv b) := by
    rw [← Int.neg_tdiv, neg_neg]
  rw [h, neg_nonpos]
  exact Int.tdiv_nonneg (by omega) hb

lemma fdiv_nonpos_of_nonpos {a b : ℤ} (ha : a ≤ 0) (hb : 0 < b) :
    a.fdiv b ≤ 0 := by
  rw [Int.fdiv_eq_ediv _ (le_of_lt hb)]
  have h : a / b < 1 := by
    rw [Int.ediv_lt_iff_lt_mul hb]
    omega
  omega

/-- C6 counterexample: with `Is_causal`, `kBlockM = kBlockN = 64`,
`m_block = 0`, `seqlen_q = 200`, `seqlen_k = 0`, `window_right = 0`
(a launched tile: `0·64 < 200`), the code computes
`n_block_max = min(0, (-73)/64) = -1` with truncating division, while the
claim's mathematical ceiling gives `min(0, ⌈-136/64⌉) = -2`. -/
theorem C6_counterexample :
    n_block_max_dense true false 64 64 0 200 0 0 ≠
      n_block_max_spec true false 64 64 0 200 0 0 := by
  decide

/-- C6 amended: the `n_block_min` formula holds exactly as claimed (the
`max` with `0` erases the difference between truncating and floor division),
and the `n_block_max` formula holds with the claim's mathematical ceiling
whenever the clamp dividend `(m_block+1)·Br + seqlen_k − seqlen_q +
window_right` exceeds `-kBlockN` (in particular whenever the computed range
is nonempty); in general the code's ceiling is the C++ truncating
`(a + Bc - 1) / Bc`. -/
theorem C6_tile_range (Is_causal Is_local : Bool)
    (kBlockM kBlockN m_block seqlen_q seqlen_k window_left window_right : ℤ)
    (hBc : 0 < kBlockN) (hsk : 0 ≤ seqlen_k) :
    n_block_min_dense Is_local kBlockM kBlockN m_block seqlen_q seqlen_k window_left =
      n_block_min_spec Is_local kBlockM kBlockN m_block seqlen_q seqlen_k window_left ∧
    (1 - kBlockN ≤ (m_block + 1) * kBlockM + seqlen_k - seqlen_q + window_right →
      n_block_max_dense Is_causal Is_local kBlockM kBlockN m_block seqlen_q seqlen_k window_right =
        n_block_max_spec Is_causal Is_local kBlockM kBlockN m_block seqlen_q seqlen_k window_right) := by
  constructor
  · unfold n_block_min_dense n_block_min_spec
    cases Is_local with
    | false => rfl
    | true =>
      simp only [if_true]
      set x := m_block * kBlockM + seqlen_k - seqlen_q - window_left with hx
      rcases le_or_lt 0 x with h | h
      · rw [tdiv_eq_fdiv_of_nonneg h (le_of_lt hBc)]
      · have h1 : x.tdiv kBlockN ≤ 0 := tdiv_nonpos_of_nonpos (le_of_lt h) (le_of_lt hBc)
        have h2 : x.fdiv kBlockN ≤ 0 := fdiv_nonpos_of_nonpos (le_of_lt h) hBc
        omega
  · intro hD
    unfold n_block_max_dense n_block_max_spec ceil_div iceil
    have h0 : (seqlen_k + kBlockN - 1).tdiv kBlockN = (seqlen_k + kBlockN - 1).fdiv kBlockN :=
      tdiv_eq_fdiv_of_nonneg (by omega) (le_of_lt hBc)
    have h1 : ((m_block + 1) * kBlockM + seqlen_k - seqlen_q + window_right + kBlockN - 1).tdiv kBlockN =
        ((m_block + 1) * kBlockM + seqlen_q * 0 + seqlen_k - seqlen_q + window_right + kBlockN - 1).fdiv kBlockN := by
      rw [mul_zero, add_zero]
      exact tdiv_eq_fdiv_of_nonneg (by omega) (le_of_lt hBc)
    rw [mul_zero, add_zero] at h1
    cases Is_causal <;> cases Is_local <;> simp only [Bool.or_self, Bool.or_false,
      Bool.false_or, Bool.or_true, if_true, if_false, h0, h1]

/-- Witness for C6: concrete evaluation with `kBlockM = kBlockN = 64`,
`m_block = 1`, `seqlen_q = 100`, `seqlen_k = 100`, windows `(3, 5)`. -/
theorem C6_tile_range_witness :
    (0 : ℤ) < 64 ∧ (0 : ℤ) ≤ 100 ∧
    (n_block_min_dense true 64 64 1 100 100 3 = n_block_min_spec true 64 64 1 100 100 3 ∧
     ((1 : ℤ) - 64 ≤ (1 + 1) * 64 + 100 - 100 + 5 →
       n_block_max_dense true true 64 64 1 100 100 5 = n_block_max_spec true true 64 64 1 100 100 5)) :=
  ⟨by decide, by decide, C6_tile_range true true 64 64 1 100 100 3 5 (by decide) (by decide)⟩

/-! ### Mask model -/

/-- The three mask modes of the kernels (`Is_causal` / `Is_local` template
flags; at most one is set). -/
inductive MaskMode
  | mmNone
  | mmCausal
  | mmLocal
deriving DecidableEq

def modeCausal : MaskMode → Bool
  | .mmCausal => true
  | _ => false

def modeLocal : MaskMode → Bool
  | .mmLocal => true
  | _ => false

/-- Modelled from the spec: `mask.h` is not in the source tree. §4.5: the
causal mask sets `S[i,j] = -∞` when `j > i + (Sk − Sq)`; the local mask when
`j > i + (Sk − Sq) + window_right` or `j < i + (Sk − Sq) − window_left`; the
key-length mask when `j ≥ actual_seqlen_k`. `true` means the logit is
replaced by `-∞`. -/
def is_masked (mode : MaskMode) (seqlen_q seqlen_k window_left window_right i j : ℤ) : Bool :=
  decide (seqlen_k ≤ j) ||
    match mode with
    | .mmNone => false
    | .mmCausal => decide (i + seqlen_k - seqlen_q < j)
    | .mmLocal => decide (i + seqlen_k - seqlen_q + window_right < j) ||
                  decide (j < i + seqlen_k - seqlen_q - window_left)

/-! ### Online softmax (per query row, exact real arithmetic) -/

/-- Per-row online-softmax state: running max `m` (`⊥` models the float
`-INFINITY` initial value), running denominator `l`, and one coordinate `o`
of the unnormalized output accumulator `acc_o`. -/
structure SMState where
  m : WithBot ℝ
  l : ℝ
  o : ℝ

/-- The state at loop entry: `m = -∞` and cleared accumulators
(source line 313 `clear(acc_o)`). -/
def initState : SMState := ⟨⊥, 0, 0⟩

/-- One entry of the probability tile `P`: masked logits are `-∞`, whose
exponential is `0`. -/
noncomputable def pexp (s : ℤ → ℝ) (msk : ℤ → Bool) (M : ℝ) (j : ℤ) : ℝ :=
  if msk j then 0 else Real.exp (s j - M)

/-- Key columns of K/V tile `n_block`: `[n·kBlockN, (n+1)·kBlockN)`. -/
def tileCols (kBlockN n : ℤ) : Finset ℤ := Finset.Ico (n * kBlockN) (n * kBlockN + kBlockN)

/-- Modelled from the spec: `softmax.h` is not in the source tree.
§4.1 step 7 / §4.4 `softmax_rescale_o` for one K/V tile, with the `P·V`
accumulation of step 11 folded in: `new_m = max(old_m, row_max(S))`;
`scale = exp(old_m − new_m)`; `ℓ ← ℓ·scale + Σⱼ exp(Sᵢⱼ − new_m)`;
`O ← O·scale + Σⱼ Pᵢⱼ·Vⱼ`, masked entries being `-∞` and contributing `0`;
`check_inf` guards rows whose max is still `-∞`: the update is a no-op. -/
noncomputable def softmax_rescale_o (kBlockN : ℤ) (s : ℤ → ℝ) (msk : ℤ → Bool) (v : ℤ → ℝ)
    (st : SMState) (n : ℤ) : SMState :=
  let cols := tileCols kBlockN n
  let newm : WithBot ℝ := st.m ⊔ ((cols.filter (fun j => msk j = false)).image s).max
  if newm = ⊥ then st
  else
    let M : ℝ := newm.unbot' 0
    let scale : ℝ := if st.m = ⊥ then 1 else Real.exp (st.m.unbot' 0 - M)
    ⟨newm, st.l * scale + ∑ j ∈ cols, pexp s msk M j,
      st.o * scale + ∑ j ∈ cols, pexp s msk M j * v j⟩

/-- The running max over a set `U` of already-processed unmasked keys. -/
noncomputable def Mval (s : ℤ → ℝ) (U : Finset ℤ) : ℝ := ((U.image s).max).unbot' 0

/-- The canonical online-softmax state after processing exactly the
unmasked key set `U`. -/
noncomputable def canonState (s : ℤ → ℝ) (v : ℤ → ℝ) (U : Finset ℤ) : SMState :=
  ⟨(U.image s).max,
   ∑ j ∈ U, Real.exp (s j - Mval s U),
   ∑ j ∈ U, Real.exp (s j - Mval s U) * v j⟩

lemma canonState_empty (s v : ℤ → ℝ) : canonState s v ∅ = initState := by
  simp [canonState, initState, Mval]

lemma sum_pexp_eq (s : ℤ → ℝ) (msk : ℤ → Bool) (M : ℝ) (cols : Finset ℤ) :
    ∑ j ∈ cols, pexp s msk M j =
      ∑ j ∈ cols.filter (fun j => msk j = false), Real.exp (s j - M) := by
  rw [Finset.sum_filter]
  apply Finset.sum_congr rfl
  intro j _
  by_cases h : msk j <;> simp [pexp, h]

lemma sum_pexp_mul_eq (s : ℤ → ℝ) (msk : ℤ → Bool) (v : ℤ → ℝ) (M : ℝ) (cols : Finset ℤ) :
    ∑ j ∈ cols, pexp s msk M j * v j =
      ∑ j ∈ cols.filter (fun j => msk j = false), Real.exp (s j - M) * v j := by
  rw [Finset.sum_filter]
  apply Finset.sum_congr rfl
  intro j _
  by_cases h : msk j <;> simp [pexp, h]

/-- One tile update takes the canonical state of `U` to the canonical state
of `U` extended by the tile's unmasked columns. -/
lemma softmax_rescale_o_canon (kBlockN : ℤ) (s v : ℤ → ℝ) (msk : ℤ → Bool) (U : Finset ℤ) (n : ℤ)
    (hdisj : Disjoint U ((tileCols kBlockN n).filter fun j => msk j = false)) :
    softmax_rescale_o kBlockN s msk v (canonState s v U) n =
      canonState s v (U ∪ (tileCols kBlockN n).filter fun j => msk j = false) := by
  set T := (tileCols kBlockN n).filter (fun j => msk j = false) with hT
  have hmax : ((canonState s v U).m ⊔ (T.image s).max) = ((U ∪ T).image s).max := by
    simp only [canonState]
    rw [Finset.image_union, Finset.max_union]
  by_cases hbot : ((U ∪ T).image s).max = ⊥
  · have hUT : U ∪ T = ∅ := by
      rwa [Finset.max_eq_bot, Finset.image_eq_empty] at hbot
    have hU : U = ∅ := by
      rw [Finset.union_eq_empty] at hUT; exact hUT.1
    have hTe : T = ∅ := by
      rw [Finset.union_eq_empty] at hUT; exact hUT.2
    rw [softmax_rescale_o, ← hT]
    simp only [hmax, hbot, if_pos rfl]
    rw [hU, hTe, Finset.union_empty]
    simp
  · rw [softmax_rescale_o, ← hT]
    simp only [hmax, if_neg hbot]
    have hMval : (((U ∪ T).image s).max).unbot' 0 = Mval s (U ∪ T) := rfl
    rcases Finset.eq_empty_or_nonempty U with hU | hU
    · -- first tile with any unmasked key: the state is still the cleared one
      have hm : (canonState s v U).m = ⊥ := by
        rw [hU, canonState_empty]; rfl
      simp only [hm, if_pos rfl, hMval]
      rw [hU, Finset.empty_union]
      simp only [canonState, hU]
      rw [sum_pexp_eq, sum_pexp_mul_eq, ← hT]
      simp [Mval]
    · -- rescale: `m₀ = Mval U`, factor `exp (m₀ − M)`
      have hm2 : ¬((Finset.image s U).max = ⊥) := by
        simp only [Finset.max_eq_bot, Finset.image_eq_empty]
        exact Finset.nonempty_iff_ne_empty.mp hU
      have hm : (canonState s v U).m ≠ ⊥ := hm2
      simp only [canonState, if_neg hm, hMval]
      have hdisj' : Disjoint U T := hdisj
      have hMU : ((U.image s).max).unbot' 0 = Mval s U := rfl
      rw [hMU]
      set M := Mval s (U ∪ T) with hM
      set m0 := Mval s U with hm0
      have hfold : ∀ j : ℤ, Real.exp (s j - m0) * Real.exp (m0 - M) = Real.exp (s j - M) := by
        intro j
        rw [← Real.exp_add]
        congr 1
        ring
      simp only [SMState.mk.injEq]
      refine ⟨trivial, ?_, ?_⟩
      · rw [if_neg hm2, Finset.sum_mul, sum_pexp_eq, ← hT, Finset.sum_union hdisj']
        congr 1
        exact Finset.sum_congr rfl fun j _ => hfold j
      · rw [if_neg hm2, Finset.sum_mul, sum_pexp_mul_eq, ← hT, Finset.sum_union hdisj']
        congr 1
        apply Finset.sum_congr rfl
        intro j _
        rw [mul_right_comm, hfold j]

/-- Unmasked columns covered by a list of K/V tiles. -/
def colsOfTiles (kBlockN : ℤ) (msk : ℤ → Bool) (ns : List ℤ) : Finset ℤ :=
  ns.foldr (fun n acc => (tileCols kBlockN n).filter (fun j => msk j = false) ∪ acc) ∅

lemma tileCols_disjoint {kBlockN a b : ℤ} (hBc : 0 < kBlockN) (hab : a ≠ b) :
    Disjoint (tileCols kBlockN a) (tileCols kBlockN b) := by
  rw [Finset.disjoint_left]
  intro j hja hjb
  rw [tileCols, Finset.mem_Ico] at hja hjb
  rcases lt_or_gt_of_ne hab with h | h
  · have h1 : a + 1 ≤ b := h
    have h2 := mul_le_mul_of_nonneg_right h1 (le_of_lt hBc)
    rw [add_mul, one_mul] at h2
    omega
  · have h1 : b + 1 ≤ a := h
    have h2 := mul_le_mul_of_nonneg_right h1 (le_of_lt hBc)
    rw [add_mul, one_mul] at h2
    omega

/-- Folding the online-softmax update over pairwise-disjoint tiles produces
the canonical state of the union of all unmasked columns. -/
lemma foldl_rescale_canon (kBlockN : ℤ) (s v : ℤ → ℝ) (msk : ℤ → Bool)
    (ns : List ℤ) (U : Finset ℤ)
    (hU : ∀ n ∈ ns, Disjoint U ((tileCols kBlockN n).filter fun j => msk j = false))
    (hns : ns.Pairwise fun a b => Disjoint (tileCols kBlockN a) (tileCols kBlockN b)) :
    ns.foldl (softmax_rescale_o kBlockN s msk v) (canonState s v U) =
      canonState s v (U ∪ colsOfTiles kBlockN msk ns) := by
  induction ns generalizing U with
  | nil => simp [colsOfTiles]
  | cons n ns ih =>
    rw [List.foldl_cons, softmax_rescale_o_canon kBlockN s v msk U n (hU n (by simp))]
    rw [List.pairwise_cons] at hns
    rw [ih _ ?_ hns.2]
    · show canonState s v _ = canonState s v (U ∪ colsOfTiles kBlockN msk (n :: ns))
      have hcons : colsOfTiles kBlockN msk (n :: ns) =
          (tileCols kBlockN n).filter (fun j => msk j = false) ∪ colsOfTiles kBlockN msk ns := rfl
      rw [hcons, Finset.union_assoc]
    · intro k hk
      apply Finset.disjoint_union_left.mpr
      refine ⟨hU k (List.mem_cons_of_mem _ hk), ?_⟩
      exact Finset.disjoint_filter_filter (hns.1 k hk)

/-- The kernel's reverse K/V tile traversal `n_block = hi−1, hi−2, …, lo`
(source lines 295, 335, 446: `int n_block = n_block_max - 1; … --n_block`
down to `n_block_min`). -/
def revTiles (lo hi : ℤ) : List ℤ :=
  (List.range (hi - lo).toNat).map (fun k : ℕ => hi - 1 - (k : ℤ))

lemma revTiles_cons {lo hi : ℤ} (h : lo < hi) :
    revTiles lo hi = (hi - 1) :: revTiles lo (hi - 1) := by
  rw [revTiles, revTiles]
  have h1 : (hi - lo).toNat = ((hi - 1) - lo).toNat + 1 := by omega
  rw [h1, List.range_succ_eq_map, List.map_cons, List.map_map]
  have h2 : hi - 1 - ((0 : ℕ) : ℤ) = hi - 1 := by push_cast; ring
  rw [h2]
  congr 1
  apply List.map_congr_left
  intro k _
  simp only [Function.comp_apply]
  push_cast
  ring

lemma revTiles_nodup (lo hi : ℤ) : (revTiles lo hi).Nodup := by
  apply List.Nodup.map
  · intro a b hab
    simp only at hab
    omega
  · exact List.nodup_range _

lemma revTiles_pairwise_disjoint {kBlockN : ℤ} (hBc : 0 < kBlockN) (lo hi : ℤ) :
    (revTiles lo hi).Pairwise fun a b => Disjoint (tileCols kBlockN a) (tileCols kBlockN b) :=
  (revTiles_nodup lo hi).imp fun hab => tileCols_disjoint hBc hab

lemma colsOfTiles_revTiles (kBlockN : ℤ) (msk : ℤ → Bool) (hBc : 0 < kBlockN) :
    ∀ (N : ℕ) (lo : ℤ),
      colsOfTiles kBlockN msk (revTiles lo (lo + N)) =
        (Finset.Ico (lo * kBlockN) ((lo + N) * kBlockN)).filter (fun j => msk j = false) := by
  intro N
  induction N with
  | zero =>
    intro lo
    simp [revTiles, colsOfTiles]
  | succ N ih =>
    intro lo
    have h : lo < lo + ((N : ℤ) + 1) := by omega
    have hcast : lo + ((N + 1 : ℕ) : ℤ) = lo + ((N : ℤ) + 1) := by push_cast; ring
    rw [hcast, revTiles_cons h]
    have h2 : lo + ((N : ℤ) + 1) - 1 = lo + (N : ℤ) := by ring
    rw [h2]
    have hcons : colsOfTiles kBlockN msk ((lo + (N : ℤ)) :: revTiles lo (lo + (N : ℤ))) =
        (tileCols kBlockN (lo + (N : ℤ))).filter (fun j => msk j = false) ∪
          colsOfTiles kBlockN msk (revTiles lo (lo + (N : ℤ))) := rfl
    rw [hcons, ih lo, tileCols, ← Finset.filter_union]
    congr 1
    rw [Finset.union_comm, Finset.Ico_union_Ico_eq_Ico]
    · congr 1
      ring
    · exact mul_le_mul_of_nonneg_right (by omega) (le_of_lt hBc)
    · omega

/-- The complete dense/split K/V loop: starting from the cleared state, the
fold over tiles `hi−1 … lo` reaches the canonical state of all unmasked
columns in `[lo·kBlockN, hi·kBlockN)`. -/
lemma dense_loop_eq_canon (kBlockN : ℤ) (hBc : 0 < kBlockN) (s v : ℤ → ℝ) (msk : ℤ → Bool)
    (lo hi : ℤ) (hlo : lo ≤ hi) :
    (revTiles lo hi).foldl (softmax_rescale_o kBlockN s msk v) initState =
      canonState s v ((Finset.Ico (lo * kBlockN) (hi * kBlockN)).filter fun j => msk j = false) := by
  have hhi : hi = lo + ((hi - lo).toNat : ℤ) := by omega
  rw [← canonState_empty s v,
    foldl_rescale_canon kBlockN s v msk _ ∅ (fun n _ => Finset.disjoint_empty_left _)
      (revTiles_pairwise_disjoint hBc lo hi), Finset.empty_union]
  rw [hhi, colsOfTiles_revTiles kBlockN msk hBc _ lo]

/-! ### Dense kernel per-row model -/

/-- Modelled from the spec: `normalize_softmax_lse` of `softmax.h` is not in
the source tree. §4.4 finalize / §7: `inv_sum = (ℓ == 0) ? 1 : 1/ℓ`,
`O ← O·inv_sum`; `LSE = (ℓ == 0) ? +INFINITY : m + log ℓ` on the dense
(non-split) path (`⊤` models `+INFINITY`). -/
noncomputable def normalize_softmax_lse_dense (st : SMState) : ℝ × WithTop ℝ :=
  (st.o * (if st.l = 0 then 1 else st.l⁻¹),
   if st.l = 0 then ⊤ else ((st.m.unbot' 0 + Real.log st.l : ℝ) : WithTop ℝ))

/-- Modelled from the spec: the split-partial path stores the `-INFINITY`
sentinel instead (§4.2 / §4.4; `⊥` models `-INFINITY`). -/
noncomputable def normalize_softmax_lse_split (st : SMState) : ℝ × WithBot ℝ :=
  (st.o * (if st.l = 0 then 1 else st.l⁻¹),
   if st.l = 0 then ⊥ else ((st.m.unbot' 0 + Real.log st.l : ℝ) : WithBot ℝ))

/-- One output row of the dense kernel `compute_attn_1rowblock`
(source lines 34–574), in exact arithmetic: the K/V tile range is computed
(lines 75–83); the early-exit branch writes `O = 0`, `LSE = +INFINITY`
(lines 89–137); otherwise the online-softmax loop runs over tiles
`n_block_max−1 … n_block_min` (lines 295–500) and the epilogue normalizes
(line 508). `s j` is the scaled logit of key `j` against this row,
including the ALiBi bias; `v j` is one head-dimension coordinate of `V`
row `j`; `i` is the absolute query row index. -/
noncomputable def compute_attn_1rowblock_row (mode : MaskMode) (Is_even_MN : Bool)
    (kBlockM kBlockN m_block seqlen_q seqlen_k window_left window_right i : ℤ)
    (s v : ℤ → ℝ) : ℝ × WithTop ℝ :=
  let Is_causal := modeCausal mode
  let Is_local := modeLocal mode
  let A := n_block_min_dense Is_local kBlockM kBlockN m_block seqlen_q seqlen_k window_left
  let B := n_block_max_dense Is_causal Is_local kBlockM kBlockN m_block seqlen_q seqlen_k window_right
  if (Is_causal || Is_local || !Is_even_MN) = true ∧ B ≤ A then (0, ⊤)
  else
    normalize_softmax_lse_dense
      ((revTiles A B).foldl
        (softmax_rescale_o kBlockN s (is_masked mode seqlen_q seqlen_k window_left window_right i) v)
        initState)

/-- The spec's straightforward reference output
`softmax(Q Kᵀ · scale + mask + alibi) · V` for one row and one
head-dimension coordinate: masked keys contribute `exp (-∞) = 0`. -/
noncomputable def O_reference (seqlen_k : ℤ) (msk : ℤ → Bool) (s v : ℤ → ℝ) : ℝ :=
  (∑ j ∈ (Finset.Ico 0 seqlen_k).filter (fun j => msk j = false), Real.exp (s j) * v j) /
    ∑ j ∈ (Finset.Ico 0 seqlen_k).filter (fun j => msk j = false), Real.exp (s j)

/-! Integer division bounds used for tile-range coverage. -/

lemma tdiv_mul_le_self {a b : ℤ} (ha : 0 ≤ a) (hb : 0 < b) : a.tdiv b * b ≤ a := by
  rw [Int.tdiv_eq_ediv ha (le_of_lt hb)]
  exact Int.ediv_mul_le a (ne_of_gt hb)

lemma le_ceil_div_mul {a b : ℤ} (hb : 0 < b) : a ≤ ceil_div a b * b := by
  rw [ceil_div]
  rcases le_or_lt 0 (a + b - 1) with h | h
  · rw [Int.tdiv_eq_ediv h (le_of_lt hb)]
    have h2 := Int.lt_ediv_add_one_mul_self (a + b - 1) hb
    rw [add_mul, one_mul] at h2
    omega
  · have h2 : (-(a + b - 1)).tdiv b * b ≤ -(a + b - 1) := tdiv_mul_le_self (by omega) hb
    rw [Int.neg_tdiv, neg_mul] at h2
    omega

lemma n_block_min_dense_nonneg (Is_local : Bool) (kBlockM kBlockN m_block seqlen_q seqlen_k window_left : ℤ) :
    0 ≤ n_block_min_dense Is_local kBlockM kBlockN m_block seqlen_q seqlen_k window_left := by
  rw [n_block_min_dense]
  cases Is_local <;> simp

/-- Keys unmasked for a row of query tile `m_block` lie strictly below
`n_block_max · kBlockN`: every key skipped above the computed range is
masked. -/
lemma unmasked_lt_nmax (mode : MaskMode)
    (kBlockM kBlockN m_block seqlen_q seqlen_k window_left window_right i j : ℤ)
    (hBc : 0 < kBlockN) (hwr : 0 ≤ window_right)
    (hi : i < (m_block + 1) * kBlockM)
    (hj : is_masked mode seqlen_q seqlen_k window_left window_right i j = false) :
    j < n_block_max_dense (modeCausal mode) (modeLocal mode) kBlockM kBlockN m_block
        seqlen_q seqlen_k window_right * kBlockN := by
  have hjk : j < seqlen_k := by
    by_contra h
    simp only [is_masked, Bool.or_eq_false_iff, decide_eq_false_iff_not, not_le] at hj
    exact h hj.1
  have hn0 : j < ceil_div seqlen_k kBlockN * kBlockN :=
    lt_of_lt_of_le hjk (le_ceil_div_mul hBc)
  cases mode with
  | mmNone =>
    simpa [n_block_max_dense, modeCausal, modeLocal] using hn0
  | mmCausal =>
    simp only [is_masked, Bool.or_eq_false_iff, decide_eq_false_iff_not, not_lt] at hj
    have hD : j < (m_block + 1) * kBlockM + seqlen_k - seqlen_q + window_right := by omega
    have h1 : j < ceil_div ((m_block + 1) * kBlockM + seqlen_k - seqlen_q + window_right) kBlockN * kBlockN :=
      lt_of_lt_of_le hD (le_ceil_div_mul hBc)
    simp only [n_block_max_dense, modeCausal, modeLocal, Bool.or_false, if_true]
    rw [min_mul_of_nonneg _ _ (le_of_lt hBc)]
    exact lt_min hn0 h1
  | mmLocal =>
    simp only [is_masked, Bool.or_eq_false_iff, decide_eq_false_iff_not, not_lt] at hj
    have hD : j < (m_block + 1) * kBlockM + seqlen_k - seqlen_q + window_right := by omega
    have h1 : j < ceil_div ((m_block + 1) * kBlockM + seqlen_k - seqlen_q + window_right) kBlockN * kBlockN :=
      lt_of_lt_of_le hD (le_ceil_div_mul hBc)
    simp only [n_block_max_dense, modeCausal, modeLocal, Bool.or_true, if_true]
    rw [min_mul_of_nonneg _ _ (le_of_lt hBc)]
    exact lt_min hn0 h1

/-- Keys unmasked for a row of query tile `m_block` lie at or above
`n_block_min · kBlockN`: every key skipped below the computed range is
masked by the local left window. -/
lemma nmin_le_unmasked (mode : MaskMode)
    (kBlockM kBlockN m_block seqlen_q seqlen_k window_left window_right i j : ℤ)
    (hBc : 0 < kBlockN)
    (him : m_block * kBlockM ≤ i) (hj0 : 0 ≤ j)
    (hj : is_masked mode seqlen_q seqlen_k window_left window_right i j = false) :
    n_block_min_dense (modeLocal mode) kBlockM kBlockN m_block seqlen_q seqlen_k window_left * kBlockN ≤ j := by
  cases mode with
  | mmNone => simpa [n_block_min_dense, modeLocal] using hj0
  | mmCausal => simpa [n_block_min_dense, modeLocal] using hj0
  | mmLocal =>
    simp only [is_masked, Bool.or_eq_false_iff, decide_eq_false_iff_not, not_lt] at hj
    set X := m_block * kBlockM + seqlen_k - seqlen_q - window_left with hX
    have hXj : X ≤ j := by omega
    simp only [n_block_min_dense, modeLocal, if_true, ← hX]
    rcases le_or_lt (X.tdiv kBlockN) 0 with h | h
    · have hmax : max 0 (X.tdiv kBlockN) = 0 := by omega
      rw [hmax, zero_mul]
      exact hj0
    · have hX0 : 0 ≤ X := by
        by_contra hneg
        have := tdiv_nonpos_of_nonpos (by omega : X ≤ 0) (le_of_lt hBc)
        omega
      have hmax : max 0 (X.tdiv kBlockN) = X.tdiv kBlockN := by omega
      rw [hmax]
      exact le_trans (tdiv_mul_le_self hX0 hBc) hXj

/-- Range coverage: the unmasked keys among all keys `[0, seqlen_k)` are
exactly the unmasked keys among the columns the kernel actually visits. -/
lemma unmasked_keys_range_eq (mode : MaskMode)
    (kBlockM kBlockN m_block seqlen_q seqlen_k window_left window_right i : ℤ)
    (hBc : 0 < kBlockN) (hwr : 0 ≤ window_right)
    (him : m_block * kBlockM ≤ i) (hi : i < (m_block + 1) * kBlockM) :
    (Finset.Ico 0 seqlen_k).filter
        (fun j => is_masked mode seqlen_q seqlen_k window_left window_right i j = false) =
      (Finset.Ico
          (n_block_min_dense (modeLocal mode) kBlockM kBlockN m_block seqlen_q seqlen_k window_left * kBlockN)
          (n_block_max_dense (modeCausal mode) (modeLocal mode) kBlockM kBlockN m_block seqlen_q seqlen_k window_right * kBlockN)).filter
        (fun j => is_masked mode seqlen_q seqlen_k window_left window_right i j = false) := by
  ext j
  simp only [Finset.mem_filter, Finset.mem_Ico]
  constructor
  · rintro ⟨⟨hj0, _⟩, hm⟩
    exact ⟨⟨nmin_le_unmasked mode kBlockM kBlockN m_block seqlen_q seqlen_k window_left window_right i j hBc him hj0 hm,
           unmasked_lt_nmax mode kBlockM kBlockN m_block seqlen_q seqlen_k window_left window_right i j hBc hwr hi hm⟩, hm⟩
  · rintro ⟨⟨hjA, _⟩, hm⟩
    refine ⟨⟨?_, ?_⟩, hm⟩
    · have hA := n_block_min_dense_nonneg (modeLocal mode) kBlockM kBlockN m_block seqlen_q seqlen_k window_left
      have := mul_nonneg hA (le_of_lt hBc)
      omega
    · by_contra h
      simp only [is_masked, Bool.or_eq_false_iff, decide_eq_false_iff_not, not_le] at hm
      exact h hm.1

/-- Under the row hypotheses, the dense row model takes the loop path and
ends in the canonical state of all unmasked keys. -/
lemma dense_row_eq_normalize_canon (mode : MaskMode) (Is_even_MN : Bool)
    (kBlockM kBlockN m_block seqlen_q seqlen_k window_left window_right i : ℤ)
    (s v : ℤ → ℝ)
    (hBc : 0 < kBlockN) (hwr : 0 ≤ window_right) (hsk : 0 ≤ seqlen_k)
    (him : m_block * kBlockM ≤ i) (hi : i < (m_block + 1) * kBlockM)
    (hne : ∃ j ∈ Finset.Ico (0 : ℤ) seqlen_k,
      is_masked mode seqlen_q seqlen_k window_left window_right i j = false) :
    compute_attn_1rowblock_row mode Is_even_MN kBlockM kBlockN m_block seqlen_q seqlen_k
        window_left window_right i s v =
      normalize_softmax_lse_dense
        (canonState s v ((Finset.Ico 0 seqlen_k).filter
          (fun j => is_masked mode seqlen_q seqlen_k window_left window_right i j = false))) := by
  set msk := is_masked mode seqlen_q seqlen_k window_left window_right i with hmsk
  set A := n_block_min_dense (modeLocal mode) kBlockM kBlockN m_block seqlen_q seqlen_k window_left with hA
  set B := n_block_max_dense (modeCausal mode) (modeLocal mode) kBlockM kBlockN m_block seqlen_q seqlen_k window_right with hB
  have hUeq := unmasked_keys_range_eq mode kBlockM kBlockN m_block seqlen_q seqlen_k
    window_left window_right i hBc hwr him hi
  have hAB : A < B := by
    obtain ⟨j, hjmem, hjm⟩ := hne
    have : j ∈ (Finset.Ico (A * kBlockN) (B * kBlockN)).filter (fun j => msk j = false) := by
      rw [← hUeq]
      exact Finset.mem_filter.mpr ⟨hjmem, hjm⟩
    rw [Finset.mem_filter, Finset.mem_Ico] at this
    have hlt : A * kBlockN < B * kBlockN := by omega
    exact lt_of_mul_lt_mul_right hlt (le_of_lt hBc)
  rw [compute_attn_1rowblock_row]
  simp only [← hA, ← hB, ← hmsk]
  have hcond : ¬((modeCausal mode || modeLocal mode || !Is_even_MN) = true ∧ B ≤ A) := by
    rintro ⟨-, hBA⟩
    omega
  rw [if_neg hcond, dense_loop_eq_canon kBlockN hBc s v msk A B (le_of_lt hAB), hUeq]

lemma sum_exp_shift (s : ℤ → ℝ) (U : Finset ℤ) (M : ℝ) :
    ∑ j ∈ U, Real.exp (s j - M) = (∑ j ∈ U, Real.exp (s j)) * Real.exp (-M) := by
  rw [Finset.sum_mul]
  apply Finset.sum_congr rfl
  intro j _
  rw [← Real.exp_add, ← sub_eq_add_neg]

lemma sum_exp_shift_mul (s v : ℤ → ℝ) (U : Finset ℤ) (M : ℝ) :
    ∑ j ∈ U, Real.exp (s j - M) * v j =
      (∑ j ∈ U, Real.exp (s j) * v j) * Real.exp (-M) := by
  rw [Finset.sum_mul]
  apply Finset.sum_congr rfl
  intro j _
  rw [mul_right_comm, ← Real.exp_add, ← sub_eq_add_neg]

/-- C1: for every input with `dropout_p = 0`, any mask mode (none, causal,
local), ALiBi folded into the logits, and every head dimension and sequence
length, the dense kernel `compute_attn_1rowblock` writes an output `O`
equal to the reference `softmax(Q Kᵀ · scale + mask + alibi) · V` — exactly,
in exact arithmetic — for each row with at least one unmasked key (rows
with all keys masked are the subject of C4). -/
theorem C1_dense_matches_reference (mode : MaskMode) (Is_even_MN : Bool)
    (kBlockM kBlockN m_block seqlen_q seqlen_k window_left window_right i : ℤ)
    (s v : ℤ → ℝ)
    (hBc : 0 < kBlockN) (hwr : 0 ≤ window_right) (hsk : 0 ≤ seqlen_k)
    (him : m_block * kBlockM ≤ i) (hi : i < (m_block + 1) * kBlockM)
    (hne : ∃ j ∈ Finset.Ico (0 : ℤ) seqlen_k,
      is_masked mode seqlen_q seqlen_k window_left window_right i j = false) :
    (compute_attn_1rowblock_row mode Is_even_MN kBlockM kBlockN m_block seqlen_q seqlen_k
        window_left window_right i s v).1 =
      O_reference seqlen_k (is_masked mode seqlen_q seqlen_k window_left window_right i) s v := by
  rw [dense_row_eq_normalize_canon mode Is_even_MN kBlockM kBlockN m_block seqlen_q seqlen_k
    window_left window_right i s v hBc hwr hsk him hi hne]
  set U := (Finset.Ico 0 seqlen_k).filter
    (fun j => is_masked mode seqlen_q seqlen_k window_left window_right i j = false) with hU
  have hUne : U.Nonempty := by
    obtain ⟨j, hjmem, hjm⟩ := hne
    exact ⟨j, Finset.mem_filter.mpr ⟨hjmem, hjm⟩⟩
  have hlpos : 0 < ∑ j ∈ U, Real.exp (s j - Mval s U) :=
    Finset.sum_pos (fun j _ => Real.exp_pos _) hUne
  simp only [normalize_softmax_lse_dense, canonState, O_reference, ← hU]
  rw [if_neg (ne_of_gt hlpos)]
  rw [sum_exp_shift, sum_exp_shift_mul, ← div_eq_mul_inv,
    mul_div_mul_right _ _ (Real.exp_ne_zero _)]

/-- Witness for C1 at a concrete input. -/
theorem C1_dense_matches_reference_witness :
    (∃ j ∈ Finset.Ico (0 : ℤ) 1, is_masked .mmNone 1 1 0 0 0 j = false) ∧
    (compute_attn_1rowblock_row .mmNone true 1 1 0 1 1 0 0 0 (fun _ => 0) (fun _ => 0)).1 =
      O_reference 1 (is_masked .mmNone 1 1 0 0 0) (fun _ => 0) (fun _ => 0) :=
  ⟨by decide,
   C1_dense_matches_reference .mmNone true 1 1 0 1 1 0 0 0 (fun _ => 0) (fun _ => 0)
     (by decide) (by decide) (by decide) (by decide) (by decide) (by decide)⟩

/-- C3: for every row with at least one unmasked key, the LSE value written
by the dense kernel equals `log Σⱼ exp(scale·(QKᵀ)ᵢⱼ + mask + alibi)`,
computed as `m + log ℓ` from the online-softmax state — exactly, in exact
arithmetic. -/
theorem C3_dense_lse_identity (mode : MaskMode) (Is_even_MN : Bool)
    (kBlockM kBlockN m_block seqlen_q seqlen_k window_left window_right i : ℤ)
    (s v : ℤ → ℝ)
    (hBc : 0 < kBlockN) (hwr : 0 ≤ window_right) (hsk : 0 ≤ seqlen_k)
    (him : m_block * kBlockM ≤ i) (hi : i < (m_block + 1) * kBlockM)
    (hne : ∃ j ∈ Finset.Ico (0 : ℤ) seqlen_k,
      is_masked mode seqlen_q seqlen_k window_left window_right i j = false) :
    (compute_attn_1rowblock_row mode Is_even_MN kBlockM kBlockN m_block seqlen_q seqlen_k
        window_left window_right i s v).2 =
      ((Real.log (∑ j ∈ (Finset.Ico 0 seqlen_k).filter
          (fun j => is_masked mode seqlen_q seqlen_k window_left window_right i j = false),
          Real.exp (s j)) : ℝ) : WithTop ℝ) := by
  rw [dense_row_eq_normalize_canon mode Is_even_MN kBlockM kBlockN m_block seqlen_q seqlen_k
    window_left window_right i s v hBc hwr hsk him hi hne]
  set U := (Finset.Ico 0 seqlen_k).filter
    (fun j => is_masked mode seqlen_q seqlen_k window_left window_right i j = false) with hU
  have hUne : U.Nonempty := by
    obtain ⟨j, hjmem, hjm⟩ := hne
    exact ⟨j, Finset.mem_filter.mpr ⟨hjmem, hjm⟩⟩
  have hlpos : 0 < ∑ j ∈ U, Real.exp (s j - Mval s U) :=
    Finset.sum_pos (fun j _ => Real.exp_pos _) hUne
  have hepos : 0 < ∑ j ∈ U, Real.exp (s j) :=
    Finset.sum_pos (fun j _ => Real.exp_pos _) hUne
  simp only [normalize_softmax_lse_dense, canonState, ← hU]
  rw [if_neg (ne_of_gt hlpos)]
  have hMval : WithBot.unbot' 0 (Finset.image s U).max = Mval s U := rfl
  rw [hMval, WithTop.coe_eq_coe, sum_exp_shift,
    Real.log_mul (ne_of_gt hepos) (Real.exp_ne_zero _), Real.log_exp]
  ring

/-- Witness for C3 at a concrete input. -/
theorem C3_dense_lse_identity_witness :
    (∃ j ∈ Finset.Ico (0 : ℤ) 1, is_masked .mmCausal 1 1 0 0 0 j = false) ∧
    (compute_attn_1rowblock_row .mmCausal true 1 1 0 1 1 0 0 0 (fun _ => 0) (fun _ => 0)).2 =
      ((Real.log (∑ j ∈ (Finset.Ico 0 1).filter
          (fun j => is_masked .mmCausal 1 1 0 0 0 j = false),
          Real.exp ((fun _ => (0 : ℝ)) j)) : ℝ) : WithTop ℝ) :=
  ⟨by decide,
   C3_dense_lse_identity .mmCausal true 1 1 0 1 1 0 0 0 (fun _ => 0) (fun _ => 0)
     (by decide) (by decide) (by decide) (by decide) (by decide) (by decide)⟩

/-! ### Split kernel per-row model -/

/-- `n_blocks_per_split` of `compute_attn_1rowblock_splitkv` (source line
611): `((params.seqlen_k + kBlockN - 1) / kBlockN + num_n_splits - 1) /
num_n_splits` with truncating division. -/
def n_blocks_per_split (seqlen_k kBlockN num_n_splits : ℤ) : ℤ :=
  ceil_div (ceil_div seqlen_k kBlockN) num_n_splits

/-- `n_block_min` of the split kernel (source lines 614–616). -/
def n_block_min_split (Is_local : Bool) (kBlockM kBlockN m_block seqlen_q actual_seqlen_k window_left n_split_idx bps : ℤ) : ℤ :=
  if Is_local then
    max (n_split_idx * bps)
      ((m_block * kBlockM + actual_seqlen_k - seqlen_q - window_left).tdiv kBlockN)
  else n_split_idx * bps

/-- `n_block_max` of the split kernel (source lines 617–621). -/
def n_block_max_split (Is_causal Is_local : Bool) (kBlockM kBlockN m_block seqlen_q actual_seqlen_k window_right n_split_idx bps : ℤ) : ℤ :=
  let m0 := min (ceil_div actual_seqlen_k kBlockN) ((n_split_idx + 1) * bps)
  if Is_causal || Is_local then
    min m0 (ceil_div ((m_block + 1) * kBlockM + actual_seqlen_k - seqlen_q + window_right) kBlockN)
  else m0

/-- One output row of the split kernel `compute_attn_1rowblock_splitkv`
(source lines 579–1181) for one split, in exact arithmetic, with
`Split = true`: the split's K/V tile range (lines 611–621); the early exit
writes `Oaccum = 0` and `LSEaccum = -INFINITY` (lines 624–663); otherwise
the same online-softmax loop runs over the split's tiles (lines 939–1103)
and the split epilogue normalizes (line 1107). -/
noncomputable def compute_attn_1rowblock_splitkv_row (mode : MaskMode)
    (kBlockM kBlockN m_block seqlen_q actual_seqlen_k window_left window_right i n_split_idx bps : ℤ)
    (s v : ℤ → ℝ) : ℝ × WithBot ℝ :=
  let A := n_block_min_split (modeLocal mode) kBlockM kBlockN m_block seqlen_q actual_seqlen_k window_left n_split_idx bps
  let B := n_block_max_split (modeCausal mode) (modeLocal mode) kBlockM kBlockN m_block seqlen_q actual_seqlen_k window_right n_split_idx bps
  if B ≤ A then (0, ⊥)
  else
    normalize_softmax_lse_split
      ((revTiles A B).foldl
        (softmax_rescale_o kBlockN s
          (is_masked mode seqlen_q actual_seqlen_k window_left window_right i) v)
        initState)

/-! ### Combine kernel per-row model -/

/-- `expf(x - M)` where `x` is a float that may be `-INFINITY`
(`expf(-INFINITY) = 0`). -/
noncomputable def wexp (x : WithBot ℝ) (M : ℝ) : ℝ :=
  WithBot.recBotCoe 0 (fun a => Real.exp (a - M)) x

lemma wexp_bot (M : ℝ) : wexp ⊥ M = 0 := rfl

lemma wexp_coe (a M : ℝ) : wexp (a : WithBot ℝ) M = Real.exp (a - M) := rfl

/-- One output row of the reduction kernel `combine_attn_seqk_parallel`
(source lines 1240–1398), in exact arithmetic. `splits` lists the per-split
`(Oaccum, LSEaccum)` values of this row (shared-memory padding rows beyond
`num_splits` hold `-INFINITY` and contribute nothing). Lines 1299–1304
compute `lse_max`, substituting `0` when it is `-INFINITY`; lines 1305–1309
`lse_sum = Σ expf(lse - lse_max)`; line 1312 `lse_logsum = (lse_sum == 0) ?
INFINITY : logf(lse_sum) + lse_max`; line 1320 stores the per-split scales
`expf(lse - lse_logsum)` (all zero when `lse_logsum = INFINITY`); lines
1351–1369 accumulate `O = Σ scale · Oaccum`. -/
noncomputable def combine_attn_seqk_parallel_row (splits : List (ℝ × WithBot ℝ)) : ℝ × WithTop ℝ :=
  let lse_max_w : WithBot ℝ := (splits.map (fun p => p.2)).foldl max ⊥
  let lse_max : ℝ := lse_max_w.unbot' 0
  let lse_sum : ℝ := (splits.map (fun p => wexp p.2 lse_max)).sum
  if lse_sum = 0 then (0, ⊤)
  else
    ((splits.map (fun p => wexp p.2 (Real.log lse_sum + lse_max) * p.1)).sum,
     ((Real.log lse_sum + lse_max : ℝ) : WithTop ℝ))

lemma le_foldl_max {l : List (WithBot ℝ)} {a : WithBot ℝ} :
    a ≤ l.foldl max a ∧ ∀ x ∈ l, x ≤ l.foldl max a := by
  induction l generalizing a with
  | nil => simp
  | cons y l ih =>
    refine ⟨le_trans (le_max_left a y) (ih (a := max a y)).1, ?_⟩
    intro x hx
    rcases List.mem_cons.mp hx with h | h
    · subst h
      exact le_trans (le_max_right a x) (ih (a := max a x)).1
    · exact (ih (a := max a y)).2 x h

/-- C5: in `combine_attn_seqk_parallel`, for every output row: if every
per-split LSE is `-∞` (total weight zero), the final LSE is `+∞` and the
final `O` is `0` (and no NaN arises, the `log 0` branch being guarded);
otherwise the final LSE is `M + log Σₛ exp(LSE_s − M)` with `M` the finite
maximum of the per-split LSEs, and the final `O` is
`Σₛ exp(LSE_s − LSE_final) · O_s`. -/
theorem C5_combine_row_semantics (splits : List (ℝ × WithBot ℝ)) :
    ((∀ p ∈ splits, p.2 = ⊥) → combine_attn_seqk_parallel_row splits = (0, ⊤)) ∧
    ((∃ p ∈ splits, p.2 ≠ ⊥) →
      ∃ M : ℝ, (splits.map (fun p => p.2)).foldl max ⊥ = (M : WithBot ℝ) ∧
        0 < (splits.map (fun p => wexp p.2 M)).sum ∧
        combine_attn_seqk_parallel_row splits =
          ((splits.map (fun p =>
              wexp p.2 (M + Real.log ((splits.map (fun q => wexp q.2 M)).sum)) * p.1)).sum,
           ((M + Real.log ((splits.map (fun q => wexp q.2 M)).sum) : ℝ) : WithTop ℝ))) := by
  constructor
  · intro hall
    rw [combine_attn_seqk_parallel_row]
    have hz : (splits.map (fun p => wexp p.2 (WithBot.unbot' 0 ((splits.map (fun q => q.2)).foldl max ⊥)))).sum = 0 := by
      apply List.sum_eq_zero
      intro x hx
      obtain ⟨p, hp, hpx⟩ := List.mem_map.mp hx
      rw [← hpx, hall p hp, wexp_bot]
    simp [hz]
  · rintro ⟨p₀, hp₀, hp₀ne⟩
    obtain ⟨a₀, ha₀⟩ := WithBot.ne_bot_iff_exists.mp hp₀ne
    have hmem : (p₀.2 : WithBot ℝ) ∈ splits.map (fun p => p.2) :=
      List.mem_map_of_mem _ hp₀
    have hle : p₀.2 ≤ (splits.map (fun p => p.2)).foldl max ⊥ :=
      (le_foldl_max).2 _ hmem
    have hfne : (splits.map (fun p => p.2)).foldl max ⊥ ≠ ⊥ := by
      intro h
      rw [h, le_bot_iff] at hle
      exact hp₀ne hle
    obtain ⟨M, hM⟩ := WithBot.ne_bot_iff_exists.mp hfne
    refine ⟨M, hM.symm, ?_, ?_⟩
    · -- the sum has the positive term `exp(a₀ − M)`
      have hterm : wexp p₀.2 M ∈ splits.map (fun p => wexp p.2 M) :=
        List.mem_map_of_mem _ hp₀
      have hnn : ∀ x ∈ splits.map (fun p => wexp p.2 M), 0 ≤ x := by
        intro x hx
        obtain ⟨p, _, hpx⟩ := List.mem_map.mp hx
        rw [← hpx, wexp]
        cases p.2 with
        | bot => simp
        | coe a => simp [le_of_lt (Real.exp_pos _)]
      have hpos : 0 < wexp p₀.2 M := by
        rw [← ha₀, wexp_coe]
        exact Real.exp_pos _
      exact lt_of_lt_of_le hpos (List.single_le_sum hnn _ hterm)
    · rw [combine_attn_seqk_parallel_row]
      have hMv : WithBot.unbot' 0 ((splits.map (fun p => p.2)).foldl max ⊥) = M := by
        rw [← hM]
        rfl
      simp only [hMv]
      have hpos : 0 < (splits.map (fun p => wexp p.2 M)).sum := by
        have hterm : wexp p₀.2 M ∈ splits.map (fun p => wexp p.2 M) :=
          List.mem_map_of_mem _ hp₀
        have hnn : ∀ x ∈ splits.map (fun p => wexp p.2 M), 0 ≤ x := by
          intro x hx
          obtain ⟨p, _, hpx⟩ := List.mem_map.mp hx
          rw [← hpx, wexp]
          cases p.2 with
          | bot => simp
          | coe a => simp [le_of_lt (Real.exp_pos _)]
        have hpos0 : 0 < wexp p₀.2 M := by
          rw [← ha₀, wexp_coe]
          exact Real.exp_pos _
        exact lt_of_lt_of_le hpos0 (List.single_le_sum hnn _ hterm)
      rw [if_neg (ne_of_gt hpos)]
      rw [add_comm M (Real.log _)]

/-- Witness for C5: one split with `LSEaccum = -∞` yields `(0, +∞)`. -/
theorem C5_combine_row_semantics_witness :
    combine_attn_seqk_parallel_row [((0 : ℝ), (⊥ : WithBot ℝ))] = (0, ⊤) :=
  (C5_combine_row_semantics [((0 : ℝ), (⊥ : WithBot ℝ))]).1
    (by
      intro p hp
      rw [List.mem_singleton] at hp
      subst hp
      rfl)

/-! ### All-masked rows (C4) -/

lemma revTiles_nil {lo hi : ℤ} (h : hi ≤ lo) : revTiles lo hi = [] := by
  rw [revTiles]
  have h0 : (hi - lo).toNat = 0 := by omega
  rw [h0]
  rfl

lemma loop_all_masked (kBlockN : ℤ) (hBc : 0 < kBlockN) (s v : ℤ → ℝ) (msk : ℤ → Bool)
    (lo hi : ℤ)
    (hmask : ∀ j, lo * kBlockN ≤ j → j < hi * kBlockN → msk j = true) :
    (revTiles lo hi).foldl (softmax_rescale_o kBlockN s msk v) initState = initState := by
  rcases le_or_lt lo hi with h | h
  · rw [dense_loop_eq_canon kBlockN hBc s v msk lo hi h]
    have he : (Finset.Ico (lo * kBlockN) (hi * kBlockN)).filter (fun j => msk j = false) = ∅ := by
      rw [Finset.filter_eq_empty_iff]
      intro j hj
      rw [Finset.mem_Ico] at hj
      rw [hmask j hj.1 hj.2]
      simp
    rw [he, canonState_empty]
  · rw [revTiles_nil (le_of_lt h)]
    rfl

lemma normalize_dense_init : normalize_softmax_lse_dense initState = (0, ⊤) := by
  simp [normalize_softmax_lse_dense, initState]

lemma normalize_split_init : normalize_softmax_lse_split initState = (0, ⊥) := by
  simp [normalize_softmax_lse_split, initState]

lemma n_block_min_split_nonneg (Is_local : Bool)
    (kBlockM kBlockN m_block seqlen_q actual_seqlen_k window_left n_split_idx bps : ℤ)
    (hsp : 0 ≤ n_split_idx) (hbps : 0 ≤ bps) :
    0 ≤ n_block_min_split Is_local kBlockM kBlockN m_block seqlen_q actual_seqlen_k window_left n_split_idx bps := by
  rw [n_block_min_split]
  cases Is_local with
  | false => exact mul_nonneg hsp hbps
  | true => exact le_trans (mul_nonneg hsp hbps) (le_max_left _ _)

lemma all_masked_above (mode : MaskMode)
    (kBlockM kBlockN seqlen_q seqlen_k window_left window_right i : ℤ) (hBc : 0 < kBlockN)
    (hall : ∀ j ∈ Finset.Ico (0 : ℤ) seqlen_k,
      is_masked mode seqlen_q seqlen_k window_left window_right i j = true) :
    ∀ lo : ℤ, 0 ≤ lo → ∀ j, lo * kBlockN ≤ j →
      is_masked mode seqlen_q seqlen_k window_left window_right i j = true := by
  intro lo hlo j hj
  rcases le_or_lt seqlen_k j with h | h
  · cases mode <;> simp [is_masked, h]
  · apply hall
    rw [Finset.mem_Ico]
    have h0 : 0 ≤ lo * kBlockN := mul_nonneg hlo (le_of_lt hBc)
    omega

lemma dense_row_all_masked (mode : MaskMode) (Is_even_MN : Bool)
    (kBlockM kBlockN m_block seqlen_q seqlen_k window_left window_right i : ℤ)
    (s v : ℤ → ℝ) (hBc : 0 < kBlockN)
    (hall : ∀ j ∈ Finset.Ico (0 : ℤ) seqlen_k,
      is_masked mode seqlen_q seqlen_k window_left window_right i j = true) :
    compute_attn_1rowblock_row mode Is_even_MN kBlockM kBlockN m_block seqlen_q seqlen_k
        window_left window_right i s v = (0, ⊤) := by
  have hmask' := all_masked_above mode kBlockM kBlockN seqlen_q seqlen_k
    window_left window_right i hBc hall
  rw [compute_attn_1rowblock_row]
  split
  · rfl
  · rw [loop_all_masked kBlockN hBc s v _ _ _
      (fun j hj _ => hmask' _ (n_block_min_dense_nonneg _ _ _ _ _ _ _) j hj)]
    exact normalize_dense_init

lemma splitkv_row_all_masked (mode : MaskMode)
    (kBlockM kBlockN m_block seqlen_q seqlen_k window_left window_right i n_split_idx bps : ℤ)
    (s v : ℤ → ℝ) (hBc : 0 < kBlockN) (hsp : 0 ≤ n_split_idx) (hbps : 0 ≤ bps)
    (hall : ∀ j ∈ Finset.Ico (0 : ℤ) seqlen_k,
      is_masked mode seqlen_q seqlen_k window_left window_right i j = true) :
    compute_attn_1rowblock_splitkv_row mode kBlockM kBlockN m_block seqlen_q seqlen_k
        window_left window_right i n_split_idx bps s v = (0, ⊥) := by
  have hmask' := all_masked_above mode kBlockM kBlockN seqlen_q seqlen_k
    window_left window_right i hBc hall
  rw [compute_attn_1rowblock_splitkv_row]
  split
  · rfl
  · rw [loop_all_masked kBlockN hBc s v _ _ _
      (fun j hj _ => hmask' _ (n_block_min_split_nonneg _ _ _ _ _ _ _ _ _ hsp hbps) j hj)]
    exact normalize_split_init

/-- C4: for every query row whose keys are all masked — including the case
where the computed K/V tile range is empty — the dense path writes `O = 0`
and `LSE = +∞`, and the split-partial path writes `Oaccum = 0` and
`LSEaccum = -∞`. -/
theorem C4_all_masked_row_sentinels (mode : MaskMode) (Is_even_MN : Bool)
    (kBlockM kBlockN m_block seqlen_q seqlen_k window_left window_right i n_split_idx bps : ℤ)
    (s v : ℤ → ℝ)
    (hBc : 0 < kBlockN) (hsp : 0 ≤ n_split_idx) (hbps : 0 ≤ bps)
    (hall : ∀ j ∈ Finset.Ico (0 : ℤ) seqlen_k,
      is_masked mode seqlen_q seqlen_k window_left window_right i j = true) :
    compute_attn_1rowblock_row mode Is_even_MN kBlockM kBlockN m_block seqlen_q seqlen_k
        window_left window_right i s v = (0, ⊤) ∧
    compute_attn_1rowblock_splitkv_row mode kBlockM kBlockN m_block seqlen_q seqlen_k
        window_left window_right i n_split_idx bps s v = (0, ⊥) :=
  ⟨dense_row_all_masked mode Is_even_MN kBlockM kBlockN m_block seqlen_q seqlen_k
      window_left window_right i s v hBc hall,
   splitkv_row_all_masked mode kBlockM kBlockN m_block seqlen_q seqlen_k
      window_left window_right i n_split_idx bps s v hBc hsp hbps hall⟩

/-- Witness for C4: a causal decode row whose single key is masked. -/
theorem C4_all_masked_row_sentinels_witness :
    ((0 : ℤ) < 1 ∧ (0 : ℤ) ≤ 0 ∧ (0 : ℤ) ≤ 1 ∧
      ∀ j ∈ Finset.Ico (0 : ℤ) 1, is_masked .mmCausal 2 1 0 0 0 j = true) ∧
    (compute_attn_1rowblock_row .mmCausal true 1 1 0 2 1 0 0 0 (fun _ => 0) (fun _ => 0) = (0, ⊤) ∧
     compute_attn_1rowblock_splitkv_row .mmCausal 1 1 0 2 1 0 0 0 0 1 (fun _ => 0) (fun _ => 0) = (0, ⊥)) :=
  ⟨⟨by decide, by decide, by decide, by decide⟩,
   C4_all_masked_row_sentinels .mmCausal true 1 1 0 2 1 0 0 0 0 1 (fun _ => 0) (fun _ => 0)
     (by decide) (by decide) (by decide) (by decide)⟩

/-! ### Split-combine equals dense (C2): arithmetic for the split ranges -/

lemma ceil_div_nonneg {a b : ℤ} (ha : 0 ≤ a) (hb : 0 < b) : 0 ≤ ceil_div a b := by
  rw [ceil_div]
  exact Int.tdiv_nonneg (by omega) (le_of_lt hb)

lemma ceil_div_pos {a b : ℤ} (ha : 0 < a) (hb : 0 < b) : 0 < ceil_div a b := by
  rw [ceil_div, Int.tdiv_eq_ediv (by omega) (le_of_lt hb)]
  have h1 : 1 ≤ (a + b - 1) / b := by
    rw [Int.le_ediv_iff_mul_le hb]
    omega
  omega

lemma ceil_div_le_ceil_div {a a' b : ℤ} (ha : 0 ≤ a) (haa : a ≤ a') (hb : 0 < b) :
    ceil_div a b ≤ ceil_div a' b := by
  rw [ceil_div, ceil_div, Int.tdiv_eq_ediv (by omega) (le_of_lt hb),
    Int.tdiv_eq_ediv (by omega) (le_of_lt hb)]
  exact Int.ediv_le_ediv hb (by omega)

lemma ediv_eq_iff_of_pos {j c k : ℤ} (hc : 0 < c) :
    j / c = k ↔ k * c ≤ j ∧ j < (k + 1) * c := by
  constructor
  · intro h
    refine ⟨?_, ?_⟩
    · rw [← h]
      exact Int.ediv_mul_le j (ne_of_gt hc)
    · rw [← h]
      exact Int.lt_ediv_add_one_mul_self j hc
  · rintro ⟨h1, h2⟩
    have ha : k ≤ j / c := (Int.le_ediv_iff_mul_le hc).mpr h1
    have hb : j / c < k + 1 := (Int.ediv_lt_iff_lt_mul hc).mpr h2
    omega

lemma list_range_map_sum (f : ℕ → ℝ) (n : ℕ) :
    ((List.range n).map f).sum = ∑ k ∈ Finset.range n, f k := by
  induction n with
  | zero => simp
  | succ n ih =>
    rw [List.range_succ, List.map_append, List.sum_append, Finset.sum_range_succ, ih]
    simp

/-- Decomposing a sum over nonnegative keys below `n·c` into the fibers of
the `c`-sized blocks `[k·c, (k+1)·c)`. -/
lemma sum_fiber_decomp (U : Finset ℤ) (f : ℤ → ℝ) (c : ℤ) (hc : 0 < c) (n : ℕ)
    (hU : ∀ j ∈ U, 0 ≤ j ∧ j < (n : ℤ) * c) :
    ∑ k ∈ Finset.range n, ∑ j ∈ U.filter (fun j => (k : ℤ) * c ≤ j ∧ j < ((k : ℤ) + 1) * c), f j
      = ∑ j ∈ U, f j := by
  have hmaps : ∀ j ∈ U, (j / c).toNat ∈ Finset.range n := by
    intro j hj
    rw [Finset.mem_range]
    have h1 := (hU j hj).1
    have h2 := (hU j hj).2
    have h3 : j / c < (n : ℤ) := (Int.ediv_lt_iff_lt_mul hc).mpr h2
    have h4 : 0 ≤ j / c := Int.ediv_nonneg h1 (le_of_lt hc)
    omega
  rw [← Finset.sum_fiberwise_of_maps_to hmaps f]
  apply Finset.sum_congr rfl
  intro k _
  apply Finset.sum_congr _ (fun _ _ => rfl)
  apply Finset.filter_congr
  intro j hj
  have h1 := (hU j hj).1
  have h4 : 0 ≤ j / c := Int.ediv_nonneg h1 (le_of_lt hc)
  constructor
  · intro hk
    have hjc : j / c = (k : ℤ) := (ediv_eq_iff_of_pos hc).mpr hk
    omega
  · intro hk
    have hjc : j / c = (k : ℤ) := by omega
    exact (ediv_eq_iff_of_pos hc).mp hjc

/-- Finalizing the canonical state of a nonempty key set on the split path:
the division by `ℓ` and `m + log ℓ` collapse to plain softmax weights and
the plain log-sum-exp. -/
lemma normalize_split_canon (s v : ℤ → ℝ) (U : Finset ℤ) (hU : U.Nonempty) :
    normalize_softmax_lse_split (canonState s v U) =
      ((∑ j ∈ U, Real.exp (s j) * v j) / ∑ j ∈ U, Real.exp (s j),
       ((Real.log (∑ j ∈ U, Real.exp (s j)) : ℝ) : WithBot ℝ)) := by
  have hlpos : 0 < ∑ j ∈ U, Real.exp (s j - Mval s U) :=
    Finset.sum_pos (fun j _ => Real.exp_pos _) hU
  have hepos : 0 < ∑ j ∈ U, Real.exp (s j) :=
    Finset.sum_pos (fun j _ => Real.exp_pos _) hU
  simp only [normalize_softmax_lse_split, canonState]
  rw [if_neg (ne_of_gt hlpos), if_neg (ne_of_gt hlpos)]
  simp only [Prod.mk.injEq]
  constructor
  · rw [sum_exp_shift, sum_exp_shift_mul, ← div_eq_mul_inv,
      mul_div_mul_right _ _ (Real.exp_ne_zero _)]
  · have hMval : WithBot.unbot' 0 (Finset.image s U).max = Mval s U := rfl
    rw [hMval, WithBot.coe_eq_coe, sum_exp_shift,
      Real.log_mul (ne_of_gt hepos) (Real.exp_ne_zero _), Real.log_exp]
    ring

/-- The dense counterpart of `normalize_split_canon`. -/
lemma normalize_dense_canon (s v : ℤ → ℝ) (U : Finset ℤ) (hU : U.Nonempty) :
    normalize_softmax_lse_dense (canonState s v U) =
      ((∑ j ∈ U, Real.exp (s j) * v j) / ∑ j ∈ U, Real.exp (s j),
       ((Real.log (∑ j ∈ U, Real.exp (s j)) : ℝ) : WithTop ℝ)) := by
  have hlpos : 0 < ∑ j ∈ U, Real.exp (s j - Mval s U) :=
    Finset.sum_pos (fun j _ => Real.exp_pos _) hU
  have hepos : 0 < ∑ j ∈ U, Real.exp (s j) :=
    Finset.sum_pos (fun j _ => Real.exp_pos _) hU
  simp only [normalize_softmax_lse_dense, canonState]
  rw [if_neg (ne_of_gt hlpos), if_neg (ne_of_gt hlpos)]
  simp only [Prod.mk.injEq]
  constructor
  · rw [sum_exp_shift, sum_exp_shift_mul, ← div_eq_mul_inv,
      mul_div_mul_right _ _ (Real.exp_ne_zero _)]
  · have hMval : WithBot.unbot' 0 (Finset.image s U).max = Mval s U := rfl
    rw [hMval, WithTop.coe_eq_coe, sum_exp_shift,
      Real.log_mul (ne_of_gt hepos) (Real.exp_ne_zero _), Real.log_exp]
    ring

/-- Membership in one split's K/V column range is membership in the dense
range intersected with the split's `bps·kBlockN`-sized block of columns:
the split ranges partition the dense range. -/
lemma split_range_mem_iff (mode : MaskMode)
    (kBlockM kBlockN m_block seqlen_q actual_seqlen_k window_left window_right sp bps j : ℤ)
    (hBc : 0 < kBlockN) (hsp : 0 ≤ sp) (hbps : 0 ≤ bps) :
    (n_block_min_split (modeLocal mode) kBlockM kBlockN m_block seqlen_q actual_seqlen_k window_left sp bps * kBlockN ≤ j ∧
      j < n_block_max_split (modeCausal mode) (modeLocal mode) kBlockM kBlockN m_block seqlen_q actual_seqlen_k window_right sp bps * kBlockN)
    ↔ ((n_block_min_dense (modeLocal mode) kBlockM kBlockN m_block seqlen_q actual_seqlen_k window_left * kBlockN ≤ j ∧
        j < n_block_max_dense (modeCausal mode) (modeLocal mode) kBlockM kBlockN m_block seqlen_q actual_seqlen_k window_right * kBlockN) ∧
        sp * (bps * kBlockN) ≤ j ∧ j < (sp + 1) * (bps * kBlockN)) := by
  have h0 : (0 : ℤ) ≤ sp * bps * kBlockN := mul_nonneg (mul_nonneg hsp hbps) (le_of_lt hBc)
  have hBc' := le_of_lt hBc
  rw [← mul_assoc sp bps kBlockN, ← mul_assoc (sp + 1) bps kBlockN]
  cases mode with
  | mmNone =>
    simp only [n_block_min_split, n_block_max_split, n_block_min_dense, n_block_max_dense,
      modeCausal, modeLocal, Bool.or_self, Bool.false_eq_true, if_false, zero_mul,
      min_mul_of_nonneg _ _ hBc', lt_min_iff]
    constructor
    · rintro ⟨ha, hb, hc⟩
      exact ⟨⟨le_trans h0 ha, hb⟩, ha, hc⟩
    · rintro ⟨⟨h0j, hC⟩, ha, hb⟩
      exact ⟨ha, hC, hb⟩
  | mmCausal =>
    simp only [n_block_min_split, n_block_max_split, n_block_min_dense, n_block_max_dense,
      modeCausal, modeLocal, Bool.or_self, Bool.or_false, Bool.false_eq_true, if_false,
      if_true, zero_mul, min_mul_of_nonneg _ _ hBc', lt_min_iff]
    constructor
    · rintro ⟨ha, ⟨hb, hc⟩, hd⟩
      exact ⟨⟨le_trans h0 ha, hb, hd⟩, ha, hc⟩
    · rintro ⟨⟨h0j, hC, hD⟩, ha, hb⟩
      exact ⟨ha, ⟨hC, hb⟩, hD⟩
  | mmLocal =>
    simp only [n_block_min_split, n_block_max_split, n_block_min_dense, n_block_max_dense,
      modeCausal, modeLocal, Bool.or_self, Bool.or_true, Bool.false_eq_true, if_false,
      if_true, zero_mul, min_mul_of_nonneg _ _ hBc', max_mul_of_nonneg _ _ hBc',
      lt_min_iff, max_le_iff]
    constructor
    · rintro ⟨⟨ha, hx⟩, ⟨hb, hc⟩, hd⟩
      exact ⟨⟨⟨le_trans h0 ha, hx⟩, hb, hd⟩, ha, hc⟩
    · rintro ⟨⟨⟨h0j, hX⟩, hC, hD⟩, ha, hb⟩
      exact ⟨⟨ha, hX⟩, ⟨hC, hb⟩, hD⟩

/-- When the split's visited columns contain an unmasked key, the split
row output is the softmax restricted to those columns. -/
lemma splitkv_row_of_nonempty (mode : MaskMode)
    (kBlockM kBlockN m_block seqlen_q actual_seqlen_k window_left window_right i sp bps : ℤ)
    (s v : ℤ → ℝ) (hBc : 0 < kBlockN)
    (hne : ((Finset.Ico
        (n_block_min_split (modeLocal mode) kBlockM kBlockN m_block seqlen_q actual_seqlen_k window_left sp bps * kBlockN)
        (n_block_max_split (modeCausal mode) (modeLocal mode) kBlockM kBlockN m_block seqlen_q actual_seqlen_k window_right sp bps * kBlockN)).filter
        (fun j => is_masked mode seqlen_q actual_seqlen_k window_left window_right i j = false)).Nonempty) :
    compute_attn_1rowblock_splitkv_row mode kBlockM kBlockN m_block seqlen_q actual_seqlen_k
        window_left window_right i sp bps s v =
      ((∑ j ∈ (Finset.Ico
          (n_block_min_split (modeLocal mode) kBlockM kBlockN m_block seqlen_q actual_seqlen_k window_left sp bps * kBlockN)
          (n_block_max_split (modeCausal mode) (modeLocal mode) kBlockM kBlockN m_block seqlen_q actual_seqlen_k window_right sp bps * kBlockN)).filter
          (fun j => is_masked mode seqlen_q actual_seqlen_k window_left window_right i j = false),
          Real.exp (s j) * v j) /
        ∑ j ∈ (Finset.Ico
          (n_block_min_split (modeLocal mode) kBlockM kBlockN m_block seqlen_q actual_seqlen_k window_left sp bps * kBlockN)
          (n_block_max_split (modeCausal mode) (modeLocal mode) kBlockM kBlockN m_block seqlen_q actual_seqlen_k window_right sp bps * kBlockN)).filter
          (fun j => is_masked mode seqlen_q actual_seqlen_k window_left window_right i j = false),
          Real.exp (s j),
       ((Real.log (∑ j ∈ (Finset.Ico
          (n_block_min_split (modeLocal mode) kBlockM kBlockN m_block seqlen_q actual_seqlen_k window_left sp bps * kBlockN)
          (n_block_max_split (modeCausal mode) (modeLocal mode) kBlockM kBlockN m_block seqlen_q actual_seqlen_k window_right sp bps * kBlockN)).filter
          (fun j => is_masked mode seqlen_q actual_seqlen_k window_left window_right i j = false),
          Real.exp (s j)) : ℝ) : WithBot ℝ)) := by
  set A := n_block_min_split (modeLocal mode) kBlockM kBlockN m_block seqlen_q actual_seqlen_k window_left sp bps with hA
  set B := n_block_max_split (modeCausal mode) (modeLocal mode) kBlockM kBlockN m_block seqlen_q actual_seqlen_k window_right sp bps with hB
  have hAB : A < B := by
    obtain ⟨j, hj⟩ := hne
    rw [Finset.mem_filter, Finset.mem_Ico] at hj
    have hlt : A * kBlockN < B * kBlockN := by omega
    exact lt_of_mul_lt_mul_right hlt (le_of_lt hBc)
  rw [compute_attn_1rowblock_splitkv_row]
  simp only [← hA, ← hB]
  rw [if_neg (by omega), dense_loop_eq_canon kBlockN hBc s v _ A B (le_of_lt hAB),
    normalize_split_canon _ _ _ hne]

/-- When the split's visited columns contain no unmasked key (in particular
when the split's tile range is empty), the split row output is the
`(0, -∞)` sentinel pair. -/
lemma splitkv_row_of_empty (mode : MaskMode)
    (kBlockM kBlockN m_block seqlen_q actual_seqlen_k window_left window_right i sp bps : ℤ)
    (s v : ℤ → ℝ) (hBc : 0 < kBlockN)
    (hemp : ((Finset.Ico
        (n_block_min_split (modeLocal mode) kBlockM kBlockN m_block seqlen_q actual_seqlen_k window_left sp bps * kBlockN)
        (n_block_max_split (modeCausal mode) (modeLocal mode) kBlockM kBlockN m_block seqlen_q actual_seqlen_k window_right sp bps * kBlockN)).filter
        (fun j => is_masked mode seqlen_q actual_seqlen_k window_left window_right i j = false)) = ∅) :
    compute_attn_1rowblock_splitkv_row mode kBlockM kBlockN m_block seqlen_q actual_seqlen_k
        window_left window_right i sp bps s v = (0, ⊥) := by
  set A := n_block_min_split (modeLocal mode) kBlockM kBlockN m_block seqlen_q actual_seqlen_k window_left sp bps with hA
  set B := n_block_max_split (modeCausal mode) (modeLocal mode) kBlockM kBlockN m_block seqlen_q actual_seqlen_k window_right sp bps with hB
  rw [compute_attn_1rowblock_splitkv_row]
  simp only [← hA, ← hB]
  by_cases hBA : B ≤ A
  · rw [if_pos hBA]
  · rw [if_neg hBA, dense_loop_eq_canon kBlockN hBc s v _ A B (by omega), hemp,
      canonState_empty]
    exact normalize_split_init

/-- The split's visited unmasked columns are exactly the fiber of the
row's unmasked keys inside the split's block `[sp·bps·Bc, (sp+1)·bps·Bc)`. -/
lemma split_range_filter_eq_fiber (mode : MaskMode)
    (kBlockM kBlockN m_block seqlen_q actual_seqlen_k window_left window_right i sp bps : ℤ)
    (hBc : 0 < kBlockN) (hwr : 0 ≤ window_right) (hsp : 0 ≤ sp) (hbps : 0 ≤ bps)
    (him : m_block * kBlockM ≤ i) (hi : i < (m_block + 1) * kBlockM) :
    (Finset.Ico
        (n_block_min_split (modeLocal mode) kBlockM kBlockN m_block seqlen_q actual_seqlen_k window_left sp bps * kBlockN)
        (n_block_max_split (modeCausal mode) (modeLocal mode) kBlockM kBlockN m_block seqlen_q actual_seqlen_k window_right sp bps * kBlockN)).filter
        (fun j => is_masked mode seqlen_q actual_seqlen_k window_left window_right i j = false) =
      ((Finset.Ico 0 actual_seqlen_k).filter
        (fun j => is_masked mode seqlen_q actual_seqlen_k window_left window_right i j = false)).filter
        (fun j => sp * (bps * kBlockN) ≤ j ∧ j < (sp + 1) * (bps * kBlockN)) := by
  ext j
  simp only [Finset.mem_filter, Finset.mem_Ico]
  constructor
  · rintro ⟨hrange, hm⟩
    have hiff := (split_range_mem_iff mode kBlockM kBlockN m_block seqlen_q actual_seqlen_k
      window_left window_right sp bps j hBc hsp hbps).mp hrange
    refine ⟨⟨⟨?_, ?_⟩, hm⟩, hiff.2⟩
    · have hA := n_block_min_dense_nonneg (modeLocal mode) kBlockM kBlockN m_block seqlen_q actual_seqlen_k window_left
      have h0 : 0 ≤ n_block_min_dense (modeLocal mode) kBlockM kBlockN m_block seqlen_q actual_seqlen_k window_left * kBlockN :=
        mul_nonneg hA (le_of_lt hBc)
      have := hiff.1.1
      omega
    · by_contra h
      simp only [is_masked, Bool.or_eq_false_iff, decide_eq_false_iff_not, not_le] at hm
      exact h hm.1
  · rintro ⟨⟨⟨hj0, hjk⟩, hm⟩, hfib⟩
    refine ⟨(split_range_mem_iff mode kBlockM kBlockN m_block seqlen_q actual_seqlen_k
      window_left window_right sp bps j hBc hsp hbps).mpr ⟨⟨?_, ?_⟩, hfib⟩, hm⟩
    · exact nmin_le_unmasked mode kBlockM kBlockN m_block seqlen_q actual_seqlen_k
        window_left window_right i j hBc him hj0 hm
    · exact unmasked_lt_nmax mode kBlockM kBlockN m_block seqlen_q actual_seqlen_k
        window_left window_right i j hBc hwr hi hm

/-- Combining per-fiber partial softmax outputs with the reduction kernel
reproduces the global softmax output: the analytic core of the
split-combine identity. `U` is the row's unmasked key set, fiber `k` holds
its keys in `[k·c, (k+1)·c)`. -/
lemma combine_of_fibers (U : Finset ℤ) (s v : ℤ → ℝ) (c : ℤ) (n : ℕ)
    (hU : ∀ j ∈ U, 0 ≤ j ∧ j < (n : ℤ) * c)
    (hcpos : U.Nonempty → 0 < c) :
    combine_attn_seqk_parallel_row ((List.range n).map (fun k : ℕ =>
      if (U.filter (fun j => (k : ℤ) * c ≤ j ∧ j < ((k : ℤ) + 1) * c)).Nonempty
      then ((∑ j ∈ U.filter (fun j => (k : ℤ) * c ≤ j ∧ j < ((k : ℤ) + 1) * c), Real.exp (s j) * v j) /
              ∑ j ∈ U.filter (fun j => (k : ℤ) * c ≤ j ∧ j < ((k : ℤ) + 1) * c), Real.exp (s j),
            ((Real.log (∑ j ∈ U.filter (fun j => (k : ℤ) * c ≤ j ∧ j < ((k : ℤ) + 1) * c), Real.exp (s j)) : ℝ) : WithBot ℝ))
      else (0, ⊥))) =
      (if U.Nonempty then
        ((∑ j ∈ U, Real.exp (s j) * v j) / ∑ j ∈ U, Real.exp (s j),
         ((Real.log (∑ j ∈ U, Real.exp (s j)) : ℝ) : WithTop ℝ))
       else (0, ⊤)) := by
  set F : ℕ → Finset ℤ :=
    fun k => U.filter (fun j => (k : ℤ) * c ≤ j ∧ j < ((k : ℤ) + 1) * c) with hF
  set shout : ℕ → ℝ × WithBot ℝ := fun k =>
    if (F k).Nonempty
    then ((∑ j ∈ F k, Real.exp (s j) * v j) / ∑ j ∈ F k, Real.exp (s j),
          ((Real.log (∑ j ∈ F k, Real.exp (s j)) : ℝ) : WithBot ℝ))
    else (0, ⊥) with hshout
  set lst := (List.range n).map shout with hlst
  rw [combine_attn_seqk_parallel_row]
  set M := WithBot.unbot' 0 ((lst.map (fun p => p.2)).foldl max ⊥) with hM
  have hterm : ∀ k : ℕ, wexp (shout k).2 M = (∑ j ∈ F k, Real.exp (s j)) * Real.exp (-M) := by
    intro k
    by_cases hne : (F k).Nonempty
    · have hpos : 0 < ∑ j ∈ F k, Real.exp (s j) :=
        Finset.sum_pos (fun j _ => Real.exp_pos _) hne
      simp only [hshout, if_pos hne, wexp_coe]
      rw [sub_eq_add_neg, Real.exp_add, Real.exp_log hpos]
    · have hemp : F k = ∅ := Finset.not_nonempty_iff_eq_empty.mp hne
      simp only [hshout, if_neg hne, wexp_bot, hemp, Finset.sum_empty, zero_mul]
  have hsum : (lst.map (fun p => wexp p.2 M)).sum =
      ∑ k ∈ Finset.range n, (∑ j ∈ F k, Real.exp (s j)) * Real.exp (-M) := by
    rw [hlst, List.map_map, list_range_map_sum]
    exact Finset.sum_congr rfl (fun k _ => hterm k)
  rcases Finset.eq_empty_or_nonempty U with hUe | hUne
  · -- no unmasked key anywhere: every fiber is empty and the guard fires
    have hz : (lst.map (fun p => wexp p.2 M)).sum = 0 := by
      rw [hsum]
      apply Finset.sum_eq_zero
      intro k _
      have : F k = ∅ := by
        rw [hF]
        rw [hUe]
        exact Finset.filter_empty _
      rw [this, Finset.sum_empty, zero_mul]
    rw [if_neg (Finset.not_nonempty_iff_eq_empty.mpr hUe)]
    simp [hz]
  · -- at least one unmasked key: the total weight is positive
    have hc0 : 0 < c := hcpos hUne
    have hEpos : 0 < ∑ j ∈ U, Real.exp (s j) :=
      Finset.sum_pos (fun j _ => Real.exp_pos _) hUne
    have hfibE : ∑ k ∈ Finset.range n, ∑ j ∈ F k, Real.exp (s j) = ∑ j ∈ U, Real.exp (s j) :=
      sum_fiber_decomp U _ c hc0 n hU
    have hsumE : (lst.map (fun p => wexp p.2 M)).sum =
        (∑ j ∈ U, Real.exp (s j)) * Real.exp (-M) := by
      rw [hsum, ← Finset.sum_mul, hfibE]
    have hspos : 0 < (lst.map (fun p => wexp p.2 M)).sum := by
      rw [hsumE]
      exact mul_pos hEpos (Real.exp_pos _)
    have hlog : Real.log ((lst.map (fun p => wexp p.2 M)).sum) + M =
        Real.log (∑ j ∈ U, Real.exp (s j)) := by
      rw [hsumE, Real.log_mul (ne_of_gt hEpos) (Real.exp_ne_zero _), Real.log_exp]
      ring
    rw [if_neg (ne_of_gt hspos), if_pos hUne, hlog]
    have hoterm : ∀ k : ℕ,
        wexp (shout k).2 (Real.log (∑ j ∈ U, Real.exp (s j))) * (shout k).1 =
        (∑ j ∈ F k, Real.exp (s j) * v j) * (∑ j ∈ U, Real.exp (s j))⁻¹ := by
      intro k
      by_cases hne : (F k).Nonempty
      · have hpos : 0 < ∑ j ∈ F k, Real.exp (s j) :=
          Finset.sum_pos (fun j _ => Real.exp_pos _) hne
        simp only [hshout, if_pos hne, wexp_coe]
        rw [Real.exp_sub, Real.exp_log hpos, Real.exp_log hEpos,
          div_mul_div_comm, mul_comm (∑ j ∈ U, Real.exp (s j)) (∑ j ∈ F k, Real.exp (s j)),
          mul_div_mul_left _ _ (ne_of_gt hpos), div_eq_mul_inv]
      · have hemp : F k = ∅ := Finset.not_nonempty_iff_eq_empty.mp hne
        simp only [hshout, if_neg hne, wexp_bot, hemp, Finset.sum_empty, zero_mul]
    simp only [Prod.mk.injEq]
    refine ⟨?_, trivial⟩
    rw [hlst, List.map_map, list_range_map_sum]
    have hterms : ∑ k ∈ Finset.range n,
        ((fun p => wexp p.2 (Real.log (∑ j ∈ U, Real.exp (s j))) * p.1) ∘ shout) k =
        ∑ k ∈ Finset.range n, (∑ j ∈ F k, Real.exp (s j) * v j) * (∑ j ∈ U, Real.exp (s j))⁻¹ :=
      Finset.sum_congr rfl (fun k _ => hoterm k)
    rw [hterms, ← Finset.sum_mul, sum_fiber_decomp U _ c hc0 n hU, ← div_eq_mul_inv]

/-- C2: for every `num_splits ≥ 1`, running `compute_attn_1rowblock_splitkv`
for every split and then `combine_attn_seqk_parallel` over the resulting
`Oaccum` and `LSEaccum` values yields exactly the dense kernel's `O` and
`LSE` on the same inputs: the code's split tile ranges partition the dense
K/V tile range. -/
theorem C2_split_combine_matches_dense (mode : MaskMode) (Is_even_MN : Bool)
    (kBlockM kBlockN m_block seqlen_q actual_seqlen_k seqlen_k_param window_left window_right i num_splits : ℤ)
    (s v : ℤ → ℝ)
    (hBc : 0 < kBlockN) (hwr : 0 ≤ window_right)
    (hsk : 0 ≤ actual_seqlen_k) (hskp : actual_seqlen_k ≤ seqlen_k_param)
    (hns : 1 ≤ num_splits)
    (him : m_block * kBlockM ≤ i) (hi : i < (m_block + 1) * kBlockM) :
    combine_attn_seqk_parallel_row
      ((List.range num_splits.toNat).map (fun sp : ℕ =>
        compute_attn_1rowblock_splitkv_row mode kBlockM kBlockN m_block seqlen_q actual_seqlen_k
          window_left window_right i (sp : ℤ)
          (n_blocks_per_split seqlen_k_param kBlockN num_splits) s v)) =
      compute_attn_1rowblock_row mode Is_even_MN kBlockM kBlockN m_block seqlen_q actual_seqlen_k
        window_left window_right i s v := by
  have hskp0 : (0 : ℤ) ≤ seqlen_k_param := le_trans hsk hskp
  set bps := n_blocks_per_split seqlen_k_param kBlockN num_splits with hbps_def
  have hbps : 0 ≤ bps := by
    rw [hbps_def, n_blocks_per_split]
    exact ceil_div_nonneg (ceil_div_nonneg hskp0 hBc) (by omega)
  set U := (Finset.Ico 0 actual_seqlen_k).filter
    (fun j => is_masked mode seqlen_q actual_seqlen_k window_left window_right i j = false) with hUdef
  set c := bps * kBlockN with hcdef
  have hentry : ∀ sp : ℕ,
      compute_attn_1rowblock_splitkv_row mode kBlockM kBlockN m_block seqlen_q actual_seqlen_k
        window_left window_right i (sp : ℤ) bps s v =
      (if (U.filter (fun j => (sp : ℤ) * c ≤ j ∧ j < ((sp : ℤ) + 1) * c)).Nonempty
       then ((∑ j ∈ U.filter (fun j => (sp : ℤ) * c ≤ j ∧ j < ((sp : ℤ) + 1) * c), Real.exp (s j) * v j) /
               ∑ j ∈ U.filter (fun j => (sp : ℤ) * c ≤ j ∧ j < ((sp : ℤ) + 1) * c), Real.exp (s j),
             ((Real.log (∑ j ∈ U.filter (fun j => (sp : ℤ) * c ≤ j ∧ j < ((sp : ℤ) + 1) * c), Real.exp (s j)) : ℝ) : WithBot ℝ))
       else (0, ⊥)) := by
    intro sp
    have hfib := split_range_filter_eq_fiber mode kBlockM kBlockN m_block seqlen_q actual_seqlen_k
      window_left window_right i (sp : ℤ) bps hBc hwr (Int.natCast_nonneg sp) hbps him hi
    rw [← hUdef, ← hcdef] at hfib
    by_cases hne : (U.filter (fun j => (sp : ℤ) * c ≤ j ∧ j < ((sp : ℤ) + 1) * c)).Nonempty
    · rw [if_pos hne]
      rw [splitkv_row_of_nonempty mode kBlockM kBlockN m_block seqlen_q actual_seqlen_k
        window_left window_right i (sp : ℤ) bps s v hBc (by rw [hfib]; exact hne), hfib]
    · rw [if_neg hne]
      exact splitkv_row_of_empty mode kBlockM kBlockN m_block seqlen_q actual_seqlen_k
        window_left window_right i (sp : ℤ) bps s v hBc
        (by rw [hfib]; exact Finset.not_nonempty_iff_eq_empty.mp hne)
  have hmap := List.map_congr_left (l := List.range num_splits.toNat) (fun sp _ => hentry sp)
  rw [hmap]
  have hUb : ∀ j ∈ U, 0 ≤ j ∧ j < (num_splits.toNat : ℤ) * c := by
    intro j hj
    rw [hUdef, Finset.mem_filter, Finset.mem_Ico] at hj
    refine ⟨hj.1.1, ?_⟩
    have h1 : j < actual_seqlen_k := hj.1.2
    have h2 : seqlen_k_param ≤ ceil_div seqlen_k_param kBlockN * kBlockN := le_ceil_div_mul hBc
    have h3 : ceil_div seqlen_k_param kBlockN ≤ bps * num_splits := by
      rw [hbps_def, n_blocks_per_split]
      exact le_ceil_div_mul (by omega)
    have h4 : ceil_div seqlen_k_param kBlockN * kBlockN ≤ bps * num_splits * kBlockN :=
      mul_le_mul_of_nonneg_right h3 (le_of_lt hBc)
    have h5 : bps * num_splits * kBlockN = (num_splits.toNat : ℤ) * c := by
      rw [hcdef]
      have hcast : (num_splits.toNat : ℤ) = num_splits := by omega
      rw [hcast]
      ring
    omega
  have hcp : U.Nonempty → 0 < c := by
    intro hUne
    obtain ⟨j, hj⟩ := hUne
    rw [hUdef, Finset.mem_filter, Finset.mem_Ico] at hj
    have hbps1 : 0 < bps := by
      rw [hbps_def, n_blocks_per_split]
      exact ceil_div_pos (ceil_div_pos (by omega) hBc) (by omega)
    rw [hcdef]
    exact mul_pos hbps1 hBc
  rw [combine_of_fibers U s v c num_splits.toNat hUb hcp]
  rcases Finset.eq_empty_or_nonempty U with hUe | hUne
  · rw [if_neg (by rw [hUe]; exact Finset.not_nonempty_empty)]
    have hall : ∀ j ∈ Finset.Ico (0 : ℤ) actual_seqlen_k,
        is_masked mode seqlen_q actual_seqlen_k window_left window_right i j = true := by
      have hfe : (Finset.Ico (0 : ℤ) actual_seqlen_k).filter
          (fun j => is_masked mode seqlen_q actual_seqlen_k window_left window_right i j = false) = ∅ := by
        rw [← hUdef]
        exact hUe
      intro j hj
      have hh := Finset.filter_eq_empty_iff.mp hfe hj
      simpa using hh
    rw [dense_row_all_masked mode Is_even_MN kBlockM kBlockN m_block seqlen_q actual_seqlen_k
      window_left window_right i s v hBc hall]
  · rw [if_pos hUne]
    have hne : ∃ j ∈ Finset.Ico (0 : ℤ) actual_seqlen_k,
        is_masked mode seqlen_q actual_seqlen_k window_left window_right i j = false := by
      obtain ⟨j, hj⟩ := hUne
      rw [hUdef, Finset.mem_filter] at hj
      exact ⟨j, hj.1, hj.2⟩
    rw [dense_row_eq_normalize_canon mode Is_even_MN kBlockM kBlockN m_block seqlen_q actual_seqlen_k
      window_left window_right i s v hBc hwr hsk him hi hne, ← hUdef,
      normalize_dense_canon s v U hUne]

/-- Witness for C2: one split, one key, no mask. -/
theorem C2_split_combine_matches_dense_witness :
    combine_attn_seqk_parallel_row
      ((List.range (1 : ℤ).toNat).map (fun sp : ℕ =>
        compute_attn_1rowblock_splitkv_row .mmNone 1 1 0 1 1 0 0 0 (sp : ℤ)
          (n_blocks_per_split 1 1 1) (fun _ => 0) (fun _ => 0))) =
      compute_attn_1rowblock_row .mmNone true 1 1 0 1 1 0 0 0 (fun _ => 0) (fun _ => 0) :=
  C2_split_combine_matches_dense .mmNone true 1 1 0 1 1 1 0 0 0 1 (fun _ => 0) (fun _ => 0)
    (by decide) (by decide) (by decide) (by decide) (by decide) (by decide) (by decide)

/-! ### RNG state is recorded before any early exit (C9) -/

/-- The exit a dense kernel block takes. -/
inductive DenseExit
  | earlyQuery
  | earlyEmptyRange
  | mainLoop
deriving DecidableEq

/-- The prologue of `compute_attn_1rowblock` (source lines 58–89) as a
state transformer on the `rng_state` buffer: the Philox `(seed, offset)`
pair is unpacked (line 58) and stored to `params.rng_state` by thread 0 of
block `(0,0,0)` when dropout is active (lines 64–67) before the early exit
for query tiles beyond `actual_seqlen_q` (line 71) and the early exit for
an empty K/V tile range (line 89) are evaluated. Returns the buffer after
the writes and which exit the block takes. -/
def compute_attn_1rowblock_prologue (Is_dropout Is_causal Is_local Is_even_MN : Bool)
    (blockIdx_x blockIdx_y blockIdx_z tidx seed offset : ℤ) (rng_state : ℤ × ℤ)
    (kBlockM kBlockN m_block seqlen_q seqlen_k window_left window_right : ℤ) :
    (ℤ × ℤ) × DenseExit :=
  let rng' := if Is_dropout = true ∧ blockIdx_x = 0 ∧ blockIdx_y = 0 ∧ blockIdx_z = 0 ∧ tidx = 0
    then (seed, offset) else rng_state
  let ex :=
    if seqlen_q ≤ m_block * kBlockM then DenseExit.earlyQuery
    else if (Is_causal || Is_local || !Is_even_MN) = true ∧
        n_block_max_dense Is_causal Is_local kBlockM kBlockN m_block seqlen_q seqlen_k window_right ≤
          n_block_min_dense Is_local kBlockM kBlockN m_block seqlen_q seqlen_k window_left
      then DenseExit.earlyEmptyRange
      else DenseExit.mainLoop
  (rng', ex)

/-- C9: when dropout is active, block `(0,0,0)` thread `0` writes
`(seed, offset)` to `rng_state` on every execution — in particular on the
executions that take the early-query or empty-range exits, since the store
precedes both checks. -/
theorem C9_rng_state_written_before_exit (Is_dropout Is_causal Is_local Is_even_MN : Bool)
    (blockIdx_x blockIdx_y blockIdx_z tidx seed offset : ℤ) (rng_state : ℤ × ℤ)
    (kBlockM kBlockN m_block seqlen_q seqlen_k window_left window_right : ℤ)
    (hdrop : Is_dropout = true)
    (hx : blockIdx_x = 0) (hy : blockIdx_y = 0) (hz : blockIdx_z = 0) (ht : tidx = 0) :
    (compute_attn_1rowblock_prologue Is_dropout Is_causal Is_local Is_even_MN
      blockIdx_x blockIdx_y blockIdx_z tidx seed offset rng_state
      kBlockM kBlockN m_block seqlen_q seqlen_k window_left window_right).1 = (seed, offset) := by
  rw [compute_attn_1rowblock_prologue]
  simp [hdrop, hx, hy, hz, ht]

/-- Witness for C9 at a configuration that takes the early-query exit
(`m_block·kBlockM = 64 ≥ seqlen_q = 1`), showing the state is still
recorded. -/
theorem C9_rng_state_written_before_exit_witness :
    (compute_attn_1rowblock_prologue true true false true 0 0 0 0 7 9 (0, 0)
        64 64 1 1 0 0 0).1 = (7, 9) ∧
    (compute_attn_1rowblock_prologue true true false true 0 0 0 0 7 9 (0, 0)
        64 64 1 1 0 0 0).2 = DenseExit.earlyQuery :=
  ⟨C9_rng_state_written_before_exit true true false true 0 0 0 0 7 9 (0, 0)
      64 64 1 1 0 0 0 rfl rfl rfl rfl rfl,
   by decide⟩

/-! ### Grouped-query head mapping (C10) -/

/-- `row_offset_k` of the dense kernel (source lines 150–153): batch
offset, tile offset, and the K head selected as
`bidh / params.h_h_k_ratio` (truncating division). -/
def row_offset_k_dense (k_batch_offset n_block_max kBlockN k_row_stride k_head_stride bidh h_h_k_ratio : ℤ) : ℤ :=
  k_batch_offset + (n_block_max - 1) * kBlockN * k_row_stride +
    bidh.tdiv h_h_k_ratio * k_head_stride

/-- `row_offset_v` of the dense kernel (source lines 154–155). -/
def row_offset_v_dense (v_batch_offset n_block_max kBlockN v_row_stride v_head_stride bidh h_h_k_ratio : ℤ) : ℤ :=
  v_batch_offset + (n_block_max - 1) * kBlockN * v_row_stride +
    bidh.tdiv h_h_k_ratio * v_head_stride

/-- The paged `row_offset_k` of the split kernel (source lines 699–704):
same KV-head selection. -/
def row_offset_k_split_paged (block_table : ℤ → ℤ) (block_table_idx block_table_offset k_batch_stride k_row_stride k_head_stride bidh h_h_k_ratio : ℤ) : ℤ :=
  block_table block_table_idx * k_batch_stride + block_table_offset * k_row_stride +
    bidh.tdiv h_h_k_ratio * k_head_stride

/-- `row_offset_knew` of the append path (source lines 823–824). -/
def row_offset_knew (knew_batch_offset n_block_max kBlockN knew_row_stride knew_head_stride bidh h_h_k_ratio : ℤ) : ℤ :=
  knew_batch_offset + (n_block_max - 1) * kBlockN * knew_row_stride +
    bidh.tdiv h_h_k_ratio * knew_head_stride

lemma tdiv_group {g r t : ℤ} (hg : 0 ≤ g) (ht : 0 ≤ t) (htr : t < r) :
    (g * r + t).tdiv r = g := by
  have hr : 0 < r := by omega
  rw [Int.tdiv_eq_ediv (by positivity) (le_of_lt hr)]
  rw [add_comm, Int.add_mul_ediv_right _ _ (ne_of_gt hr)]
  rw [Int.ediv_eq_zero_of_lt ht htr, zero_add]

/-- C10: for every query head `bidh = g·r + t` in the `g`-th group of size
`r = h_h_k_ratio`, the dense kernel, the split kernel (paged or not) and
the append path all read K/V (and Knew/Vnew) from KV head `g = ⌊bidh/r⌋`:
query heads map onto KV heads in contiguous groups of size `r`. -/
theorem C10_gqa_head_mapping (k_batch_offset v_batch_offset knew_batch_offset n_block_max kBlockN
    k_row_stride v_row_stride knew_row_stride k_head_stride v_head_stride knew_head_stride
    k_batch_stride block_table_idx block_table_offset : ℤ) (block_table : ℤ → ℤ)
    (g r t : ℤ) (hg : 0 ≤ g) (ht : 0 ≤ t) (htr : t < r) :
    row_offset_k_dense k_batch_offset n_block_max kBlockN k_row_stride k_head_stride (g * r + t) r =
      k_batch_offset + (n_block_max - 1) * kBlockN * k_row_stride + g * k_head_stride ∧
    row_offset_v_dense v_batch_offset n_block_max kBlockN v_row_stride v_head_stride (g * r + t) r =
      v_batch_offset + (n_block_max - 1) * kBlockN * v_row_stride + g * v_head_stride ∧
    row_offset_k_split_paged block_table block_table_idx block_table_offset k_batch_stride
        k_row_stride k_head_stride (g * r + t) r =
      block_table block_table_idx * k_batch_stride + block_table_offset * k_row_stride +
        g * k_head_stride ∧
    row_offset_knew knew_batch_offset n_block_max kBlockN knew_row_stride knew_head_stride (g * r + t) r =
      knew_batch_offset + (n_block_max - 1) * kBlockN * knew_row_stride + g * knew_head_stride := by
  have hdiv : (g * r + t).tdiv r = g := tdiv_group hg ht htr
  refine ⟨?_, ?_, ?_, ?_⟩ <;>
    simp only [row_offset_k_dense, row_offset_v_dense, row_offset_k_split_paged,
      row_offset_knew, hdiv]

/-- Witness for C10: head `7` with ratio `3` reads KV head `2`. -/
theorem C10_gqa_head_mapping_witness :
    row_offset_k_dense 1000 4 64 8 100 (2 * 3 + 1) 3 =
      1000 + (4 - 1) * 64 * 8 + 2 * 100 ∧
    row_offset_v_dense 2000 4 64 8 100 (2 * 3 + 1) 3 =
      2000 + (4 - 1) * 64 * 8 + 2 * 100 ∧
    row_offset_k_split_paged (fun p => 10 * p) 5 16 4096 8 100 (2 * 3 + 1) 3 =
      (fun p : ℤ => 10 * p) 5 * 4096 + 16 * 8 + 2 * 100 ∧
    row_offset_knew 3000 4 64 8 100 (2 * 3 + 1) 3 =
      3000 + (4 - 1) * 64 * 8 + 2 * 100 :=
  C10_gqa_head_mapping 1000 2000 3000 4 64 8 8 8 100 100 100 4096 5 16 (fun p => 10 * p)
    2 3 1 (by decide) (by decide) (by decide)

/-! ### Paged KV addressing (C7) -/

/-- `block_table_idx` for K/V tile `n` (source lines 693, 881–884,
1016–1019): `n * kBlockN / params.page_block_size`. -/
def block_table_idx (kBlockN page_block_size n : ℤ) : ℤ :=
  (n * kBlockN).tdiv page_block_size

/-- The in-page row offset of tile `n` (source lines 695, 882–885,
1017–1019): `n * kBlockN - block_table_idx * page_block_size`. -/
def block_table_offset (kBlockN page_block_size n : ℤ) : ℤ :=
  n * kBlockN - block_table_idx kBlockN page_block_size n * page_block_size

/-- The direct physical pointer of K/V tile `n` in paged mode (source
lines 699–704): page base plus in-page row offset plus head offset. -/
def paged_tile_ptr (block_table : ℤ → ℤ) (kBlockN page_block_size k_batch_stride k_row_stride head_offset n : ℤ) : ℤ :=
  block_table (block_table_idx kBlockN page_block_size n) * k_batch_stride +
    block_table_offset kBlockN page_block_size n * k_row_stride + head_offset

/-- One incremental pointer update from tile `n` to tile `n−1` (source
lines 1016–1020 and 1080–1084): advance by the difference of the page
bases and of the in-page offsets. -/
def paged_tile_ptr_step (block_table : ℤ → ℤ) (kBlockN page_block_size k_batch_stride k_row_stride n ptr : ℤ) : ℤ :=
  ptr + (block_table (block_table_idx kBlockN page_block_size (n - 1)) -
          block_table (block_table_idx kBlockN page_block_size n)) * k_batch_stride +
        (block_table_offset kBlockN page_block_size (n - 1) -
          block_table_offset kBlockN page_block_size n) * k_row_stride

/-- The pointer after `k` incremental updates starting from the initial
pointer at tile `n0 = n_block_max − 1` (source line 699 initialises, the
loop steps). -/
def paged_tile_ptr_walk (block_table : ℤ → ℤ) (kBlockN page_block_size k_batch_stride k_row_stride head_offset n0 : ℤ) : ℕ → ℤ
  | 0 => paged_tile_ptr block_table kBlockN page_block_size k_batch_stride k_row_stride head_offset n0
  | (k + 1) => paged_tile_ptr_step block_table kBlockN page_block_size k_batch_stride k_row_stride
      (n0 - (k : ℤ))
      (paged_tile_ptr_walk block_table kBlockN page_block_size k_batch_stride k_row_stride head_offset n0 k)

/-- The physical address the kernel reads for the logical K/V row `t`:
row `t % kBlockN` of tile `t / kBlockN`. -/
def paged_row_addr (block_table : ℤ → ℤ) (kBlockN page_block_size k_batch_stride k_row_stride head_offset t : ℤ) : ℤ :=
  paged_tile_ptr block_table kBlockN page_block_size k_batch_stride k_row_stride head_offset
      (t / kBlockN) + (t % kBlockN) * k_row_stride

lemma paged_tile_ptr_walk_eq (block_table : ℤ → ℤ)
    (kBlockN page_block_size k_batch_stride k_row_stride head_offset n0 : ℤ) :
    ∀ k : ℕ, paged_tile_ptr_walk block_table kBlockN page_block_size k_batch_stride k_row_stride head_offset n0 k =
      paged_tile_ptr block_table kBlockN page_block_size k_batch_stride k_row_stride head_offset (n0 - (k : ℤ)) := by
  intro k
  induction k with
  | zero => simp [paged_tile_ptr_walk]
  | succ k ih =>
    rw [paged_tile_ptr_walk, ih, paged_tile_ptr_step, paged_tile_ptr, paged_tile_ptr]
    have hc : n0 - ((k : ℕ) + 1 : ℕ) = (n0 - (k : ℤ)) - 1 := by push_cast; ring
    rw [hc]
    ring

/-- The logical row `t` of tile `t / kBlockN` sits at physical address
`block_table[t / page_size]·batch_stride + (t mod page_size)·row_stride +
head_offset`, provided pages are whole multiples of the tile size. -/
lemma paged_row_addr_eq (block_table : ℤ → ℤ)
    (kBlockN page_block_size k_batch_stride k_row_stride head_offset t : ℤ)
    (hBc : 0 < kBlockN) (hP : 0 < page_block_size) (hdvd : kBlockN ∣ page_block_size)
    (ht : 0 ≤ t) :
    paged_row_addr block_table kBlockN page_block_size k_batch_stride k_row_stride head_offset t =
      block_table (t / page_block_size) * k_batch_stride +
        (t % page_block_size) * k_row_stride + head_offset := by
  obtain ⟨m, hm⟩ := hdvd
  set n := t / kBlockN with hn
  set r := t % kBlockN with hr
  have hr0 : 0 ≤ r := Int.emod_nonneg t (ne_of_gt hBc)
  have hrB : r < kBlockN := Int.emod_lt_of_pos t hBc
  have htnr : t = n * kBlockN + r := by
    rw [hn, hr, mul_comm]
    exact (Int.ediv_add_emod t kBlockN).symm
  have hn0 : 0 ≤ n := Int.ediv_nonneg ht (le_of_lt hBc)
  set q := block_table_idx kBlockN page_block_size n with hq
  set off := block_table_offset kBlockN page_block_size n with hoff
  have hoffdef : off = n * kBlockN - q * page_block_size := rfl
  have hq0 : q = (n * kBlockN) / page_block_size := by
    rw [hq, block_table_idx, Int.tdiv_eq_ediv (by positivity) (le_of_lt hP)]
  have hoff0 : 0 ≤ off := by
    rw [hoffdef, hq0]
    have := Int.ediv_mul_le (n * kBlockN) (ne_of_gt hP)
    omega
  have hoffP : off < page_block_size := by
    rw [hoffdef, hq0]
    have := Int.lt_ediv_add_one_mul_self (n * kBlockN) hP
    rw [add_mul, one_mul] at this
    omega
  -- `off` is a multiple of `kBlockN`, hence at most `page_block_size − kBlockN`
  have hoffmul : ∃ u : ℤ, off = u * kBlockN := by
    refine ⟨n - q * m, ?_⟩
    rw [hoffdef, hm]
    ring
  have hoffBc : off ≤ page_block_size - kBlockN := by
    obtain ⟨u, hu⟩ := hoffmul
    have hum : u < m := by
      by_contra hle
      push_neg at hle
      have : m * kBlockN ≤ u * kBlockN := mul_le_mul_of_nonneg_right hle (le_of_lt hBc)
      rw [hm, mul_comm kBlockN m] at hoffP
      omega
    have : u * kBlockN ≤ (m - 1) * kBlockN :=
      mul_le_mul_of_nonneg_right (by omega) (le_of_lt hBc)
    rw [hu, hm]
    have hmk : (m - 1) * kBlockN = kBlockN * m - kBlockN := by ring
    omega
  -- hence `t = q·P + (off + r)` with `0 ≤ off + r < P`
  have htq : t = page_block_size * q + (off + r) := by
    rw [htnr, hoffdef]
    ring
  have htdiv : t / page_block_size = q := by
    rw [ediv_eq_iff_of_pos hP]
    constructor
    · omega
    · rw [add_mul, one_mul]
      omega
  have htmod : t % page_block_size = off + r := by
    rw [Int.emod_def, htdiv]
    omega
  rw [paged_row_addr, paged_tile_ptr, htdiv, htmod, ← hn, ← hr, ← hq, ← hoff]
  ring

/-- Two logit functions agreeing on all valid (nonnegative) key rows give
the same split-kernel row output: the kernel consumes K only through the
tile reads. -/
lemma splitkv_row_congr (mode : MaskMode)
    (kBlockM kBlockN m_block seqlen_q actual_seqlen_k window_left window_right i sp bps : ℤ)
    (s₁ s₂ v : ℤ → ℝ)
    (hBc : 0 < kBlockN) (hsp : 0 ≤ sp) (hbps : 0 ≤ bps)
    (hagree : ∀ j, 0 ≤ j → s₁ j = s₂ j) :
    compute_attn_1rowblock_splitkv_row mode kBlockM kBlockN m_block seqlen_q actual_seqlen_k
        window_left window_right i sp bps s₁ v =
      compute_attn_1rowblock_splitkv_row mode kBlockM kBlockN m_block seqlen_q actual_seqlen_k
        window_left window_right i sp bps s₂ v := by
  have hA0 : 0 ≤ n_block_min_split (modeLocal mode) kBlockM kBlockN m_block seqlen_q
      actual_seqlen_k window_left sp bps * kBlockN :=
    mul_nonneg (n_block_min_split_nonneg _ _ _ _ _ _ _ _ _ hsp hbps) (le_of_lt hBc)
  have hmem : ∀ j ∈ (Finset.Ico
      (n_block_min_split (modeLocal mode) kBlockM kBlockN m_block seqlen_q actual_seqlen_k window_left sp bps * kBlockN)
      (n_block_max_split (modeCausal mode) (modeLocal mode) kBlockM kBlockN m_block seqlen_q actual_seqlen_k window_right sp bps * kBlockN)).filter
      (fun j => is_masked mode seqlen_q actual_seqlen_k window_left window_right i j = false),
      0 ≤ j := by
    intro j hj
    rw [Finset.mem_filter, Finset.mem_Ico] at hj
    omega
  by_cases hne : ((Finset.Ico
      (n_block_min_split (modeLocal mode) kBlockM kBlockN m_block seqlen_q actual_seqlen_k window_left sp bps * kBlockN)
      (n_block_max_split (modeCausal mode) (modeLocal mode) kBlockM kBlockN m_block seqlen_q actual_seqlen_k window_right sp bps * kBlockN)).filter
      (fun j => is_masked mode seqlen_q actual_seqlen_k window_left window_right i j = false)).Nonempty
  · rw [splitkv_row_of_nonempty mode kBlockM kBlockN m_block seqlen_q actual_seqlen_k
        window_left window_right i sp bps s₁ v hBc hne,
      splitkv_row_of_nonempty mode kBlockM kBlockN m_block seqlen_q actual_seqlen_k
        window_left window_right i sp bps s₂ v hBc hne]
    have he : ∀ j ∈ (Finset.Ico
        (n_block_min_split (modeLocal mode) kBlockM kBlockN m_block seqlen_q actual_seqlen_k window_left sp bps * kBlockN)
        (n_block_max_split (modeCausal mode) (modeLocal mode) kBlockM kBlockN m_block seqlen_q actual_seqlen_k window_right sp bps * kBlockN)).filter
        (fun j => is_masked mode seqlen_q actual_seqlen_k window_left window_right i j = false),
        Real.exp (s₁ j) = Real.exp (s₂ j) :=
      fun j hj => by rw [hagree j (hmem j hj)]
    have hev : ∀ j ∈ (Finset.Ico
        (n_block_min_split (modeLocal mode) kBlockM kBlockN m_block seqlen_q actual_seqlen_k window_left sp bps * kBlockN)
        (n_block_max_split (modeCausal mode) (modeLocal mode) kBlockM kBlockN m_block seqlen_q actual_seqlen_k window_right sp bps * kBlockN)).filter
        (fun j => is_masked mode seqlen_q actual_seqlen_k window_left window_right i j = false),
        Real.exp (s₁ j) * v j = Real.exp (s₂ j) * v j :=
      fun j hj => by rw [hagree j (hmem j hj)]
    rw [Finset.sum_congr rfl he, Finset.sum_congr rfl hev]
  · have hemp := Finset.not_nonempty_iff_eq_empty.mp hne
    rw [splitkv_row_of_empty mode kBlockM kBlockN m_block seqlen_q actual_seqlen_k
        window_left window_right i sp bps s₁ v hBc hemp,
      splitkv_row_of_empty mode kBlockM kBlockN m_block seqlen_q actual_seqlen_k
        window_left window_right i sp bps s₂ v hBc hemp]

/-- C7: for every `block_table` whose pages hold the same logical K/V
contents as the unpaged layout, the split kernel in paged mode reads, for
every K/V row `t`, the physical address
`block_table[t / page_size]·batch_stride + (t mod page_size)·row_stride`
(the incremental per-tile pointer updates compose to the direct formula),
so paged mode produces exactly the same `O` and `LSE` as unpaged mode
(logit functions that agree on all valid rows give identical outputs). -/
theorem C7_paged_addressing (block_table : ℤ → ℤ)
    (kBlockN page_block_size k_batch_stride k_row_stride head_offset n0 t : ℤ)
    (mode : MaskMode)
    (kBlockM m_block seqlen_q actual_seqlen_k window_left window_right i sp bps : ℤ)
    (s_paged s_unpaged v : ℤ → ℝ)
    (hBc : 0 < kBlockN) (hP : 0 < page_block_size) (hdvd : kBlockN ∣ page_block_size)
    (ht : 0 ≤ t)
    (hsp : 0 ≤ sp) (hbps : 0 ≤ bps)
    (hagree : ∀ j, 0 ≤ j → s_paged j = s_unpaged j) :
    (∀ k : ℕ, paged_tile_ptr_walk block_table kBlockN page_block_size k_batch_stride k_row_stride head_offset n0 k =
      paged_tile_ptr block_table kBlockN page_block_size k_batch_stride k_row_stride head_offset (n0 - (k : ℤ))) ∧
    paged_row_addr block_table kBlockN page_block_size k_batch_stride k_row_stride head_offset t =
      block_table (t / page_block_size) * k_batch_stride +
        (t % page_block_size) * k_row_stride + head_offset ∧
    compute_attn_1rowblock_splitkv_row mode kBlockM kBlockN m_block seqlen_q actual_seqlen_k
        window_left window_right i sp bps s_paged v =
      compute_attn_1rowblock_splitkv_row mode kBlockM kBlockN m_block seqlen_q actual_seqlen_k
        window_left window_right i sp bps s_unpaged v :=
  ⟨paged_tile_ptr_walk_eq block_table kBlockN page_block_size k_batch_stride k_row_stride head_offset n0,
   paged_row_addr_eq block_table kBlockN page_block_size k_batch_stride k_row_stride head_offset t
     hBc hP hdvd ht,
   splitkv_row_congr mode kBlockM kBlockN m_block seqlen_q actual_seqlen_k
     window_left window_right i sp bps s_paged s_unpaged v hBc hsp hbps hagree⟩

/-- Witness for C7: `kBlockN = 2`, `page_block_size = 4`, key row `t = 5`. -/
theorem C7_paged_addressing_witness :
    paged_row_addr (fun p => 100 * p) 2 4 1000 10 3 5 =
      (fun p : ℤ => 100 * p) (5 / 4) * 1000 + (5 % 4) * 10 + 3 ∧
    compute_attn_1rowblock_splitkv_row .mmNone 1 2 0 1 1 0 0 0 0 1 (fun _ => 0) (fun _ => 0) =
      compute_attn_1rowblock_splitkv_row .mmNone 1 2 0 1 1 0 0 0 0 1 (fun _ => 0) (fun _ => 0) :=
  ⟨(C7_paged_addressing (fun p => 100 * p) 2 4 1000 10 3 0 5 .mmNone 1 0 1 1 0 0 0 0 1
      (fun _ => 0) (fun _ => 0) (fun _ => 0) (by decide) (by decide) (by decide) (by decide)
      (by decide) (by decide) (fun _ _ => rfl)).2.1,
   (C7_paged_addressing (fun p => 100 * p) 2 4 1000 10 3 0 5 .mmNone 1 0 1 1 0 0 0 0 1
      (fun _ => 0) (fun _ => 0) (fun _ => 0) (by decide) (by decide) (by decide) (by decide)
      (by decide) (by decide) (fun _ _ => rfl)).2.2⟩

/-! ### KV-cache append and rotary positions (C8) -/

lemma mem_revTiles {lo hi n : ℤ} : n ∈ revTiles lo hi ↔ lo ≤ n ∧ n < hi := by
  rw [revTiles]
  simp only [List.mem_map, List.mem_range]
  constructor
  · rintro ⟨k, hk, rfl⟩
    omega
  · rintro ⟨h1, h2⟩
    exact ⟨(hi - 1 - n).toNat, by omega, by omega⟩

/-- Modelled from the spec: `copy_w_min_idx` of `utils.h` is not in the
source tree. The append-loop tile at `n_block` (source lines 845–853)
copies exactly the rows `r ∈ [0, kBlockN)` whose global cache position
`t = n_block·kBlockN + r` satisfies the bounds passed at line 847:
`min_MN = seqlen_k_cache − n·kBlockN ≤ r` and
`r < max_MN = actual_seqlen_k − n·kBlockN`. -/
def append_tile_rows (kBlockN seqlen_k_cache actual_seqlen_k n : ℤ) : List ℤ :=
  ((List.range kBlockN.toNat).map (fun r : ℕ => n * kBlockN + (r : ℤ))).filter
    (fun t => decide (seqlen_k_cache ≤ t) && decide (t < actual_seqlen_k))

/-- The global cache rows written by the whole append loop (source lines
842–894): tiles `n_block_max − 1` down to
`n_block_copy_min = max(n_block_min, seqlen_k_cache / kBlockN)`. -/
def append_copied_rows (kBlockN seqlen_k_cache actual_seqlen_k n_copy_min n_block_max : ℤ) : List ℤ :=
  ((revTiles n_copy_min n_block_max).map
    (fun n => append_tile_rows kBlockN seqlen_k_cache actual_seqlen_k n)).join

/-- `gKnew`'s pointer for the `k`-th visited tile (source lines 823–833 and
874): `row_offset_knew` shifted by `−seqlen_k_cache·knew_row_stride` so
cache rows and `Knew` rows line up, then decremented by
`kBlockN·knew_row_stride` once per tile. -/
def knew_tile_ptr_walk (knew_batch_offset n_block_max kBlockN knew_row_stride knew_head_stride bidh h_h_k_ratio seqlen_k_cache : ℤ) : ℕ → ℤ
  | 0 => row_offset_knew knew_batch_offset n_block_max kBlockN knew_row_stride knew_head_stride bidh h_h_k_ratio
         - seqlen_k_cache * knew_row_stride
  | (k + 1) => knew_tile_ptr_walk knew_batch_offset n_block_max kBlockN knew_row_stride
      knew_head_stride bidh h_h_k_ratio seqlen_k_cache k - kBlockN * knew_row_stride

/-- The `rotary_cos`/`rotary_sin` address for row `i` of the Q tile
(source lines 907–921): base row `seqlen_k_cache + (causal/local ?
m_block·kBlockM : 0)`, row stride `rotary_dim/2` when causal or local and
`0` (broadcast) otherwise. -/
def q_cossin_addr (Is_causal Is_local : Bool) (seqlen_k_cache m_block kBlockM rotary_dim i : ℤ) : ℤ :=
  (seqlen_k_cache + (if (Is_causal || Is_local) = true then m_block * kBlockM else 0)) * rotary_dim.tdiv 2
    + i * (if (Is_causal || Is_local) = true then rotary_dim.tdiv 2 else 0)

/-- Which copy routine the append loop uses for the K rows of one tile. -/
inductive AppendCopyKind
  | plain
  | rotaryInterleaved
  | rotaryContiguous
deriving DecidableEq

/-- The K-copy routine selected by the append loop (source lines 850–872):
plain `copy_w_min_idx` when `params.rotary_dim == 0`, otherwise
`copy_rotary_interleaved` or `copy_rotary_contiguous` according to
`params.is_rotary_interleaved` — rotary is applied to the appended K rows
exactly when `rotary_dim` is nonzero. -/
def append_copy_kind (rotary_dim : ℤ) (is_rotary_interleaved : Bool) : AppendCopyKind :=
  if rotary_dim = 0 then AppendCopyKind.plain
  else if is_rotary_interleaved then AppendCopyKind.rotaryInterleaved
  else AppendCopyKind.rotaryContiguous

/-- The `gCos`/`gSin` pointer used for the appended K rows at the `k`-th
visited tile (source lines 802 and 861–870): base
`row_offset_cossin = ((n_block_max − 1)·kBlockN)·(rotary_dim/2)`,
decremented by `kBlockN·rotary_dim/2` once per tile in the rotary
branches. -/
def k_cossin_ptr_walk (kBlockN n_block_max rotary_dim : ℤ) : ℕ → ℤ
  | 0 => ((n_block_max - 1) * kBlockN) * rotary_dim.tdiv 2
  | (k + 1) => k_cossin_ptr_walk kBlockN n_block_max rotary_dim k - (kBlockN * rotary_dim).tdiv 2

/-- C8: with `Append_KV`, (1) the append loop writes exactly the cache
rows `[seqlen_k_cache, seqlen_k_cache + seqlen_knew)` — each new row `j`
lands at position `seqlen_k_cache + j`; (2) reading row `r` of the `k`-th
visited tile addresses `Knew` at logical row `t − seqlen_k_cache` where
`t` is the global cache position; (3) when `rotary_dim > 0` the appended K
rows go through a rotary copy (interleaved or contiguous per
`is_rotary_interleaved`), and (4) only when `rotary_dim = 0` through the
plain copy; (5) the rotary cos/sin rows read for the appended K rows are
the rows' own cache positions `t`; (6) the Q tile reads rotary cos/sin at
per-row positions `seqlen_k_cache + m_block·kBlockM + i` when causal or
local and at the single broadcast position `seqlen_k_cache` otherwise. -/
theorem C8_append_kv (Is_causal Is_local is_rotary_interleaved : Bool)
    (kBlockM kBlockN seqlen_k_cache seqlen_knew m_block rotary_dim : ℤ)
    (knew_batch_offset knew_row_stride knew_head_stride bidh h_h_k_ratio : ℤ)
    (hBc : 0 < kBlockN) (hcache : 0 ≤ seqlen_k_cache) (hknew : 0 ≤ seqlen_knew) :
    (∀ t : ℤ,
      t ∈ append_copied_rows kBlockN seqlen_k_cache (seqlen_k_cache + seqlen_knew)
          (seqlen_k_cache.tdiv kBlockN) (ceil_div (seqlen_k_cache + seqlen_knew) kBlockN) ↔
        seqlen_k_cache ≤ t ∧ t < seqlen_k_cache + seqlen_knew) ∧
    (∀ (k : ℕ) (r : ℤ),
      knew_tile_ptr_walk knew_batch_offset
          (ceil_div (seqlen_k_cache + seqlen_knew) kBlockN) kBlockN knew_row_stride
          knew_head_stride bidh h_h_k_ratio seqlen_k_cache k + r * knew_row_stride =
        knew_batch_offset + bidh.tdiv h_h_k_ratio * knew_head_stride +
          (((ceil_div (seqlen_k_cache + seqlen_knew) kBlockN - 1 - (k : ℤ)) * kBlockN + r)
            - seqlen_k_cache) * knew_row_stride) ∧
    (0 < rotary_dim →
      append_copy_kind rotary_dim is_rotary_interleaved =
        (if is_rotary_interleaved = true then AppendCopyKind.rotaryInterleaved
         else AppendCopyKind.rotaryContiguous)) ∧
    (rotary_dim = 0 →
      append_copy_kind rotary_dim is_rotary_interleaved = AppendCopyKind.plain) ∧
    (∀ half : ℤ, rotary_dim = 2 * half →
      ∀ (k : ℕ) (r : ℤ),
        k_cossin_ptr_walk kBlockN (ceil_div (seqlen_k_cache + seqlen_knew) kBlockN) rotary_dim k
            + r * rotary_dim.tdiv 2 =
          ((ceil_div (seqlen_k_cache + seqlen_knew) kBlockN - 1 - (k : ℤ)) * kBlockN + r)
            * rotary_dim.tdiv 2) ∧
    (∀ i : ℤ,
      q_cossin_addr Is_causal Is_local seqlen_k_cache m_block kBlockM rotary_dim i =
        (if (Is_causal || Is_local) = true then seqlen_k_cache + m_block * kBlockM + i
         else seqlen_k_cache) * rotary_dim.tdiv 2) := by
  refine ⟨?_, ?_, ?_, ?_, ?_, ?_⟩
  · intro t
    rw [append_copied_rows]
    simp only [List.mem_join, List.mem_map]
    constructor
    · rintro ⟨l, ⟨n, hn, rfl⟩, htl⟩
      rw [append_tile_rows, List.mem_filter] at htl
      have hb := htl.2
      simp only [Bool.and_eq_true, decide_eq_true_eq] at hb
      exact hb
    · rintro ⟨h1, h2⟩
      have ht0 : 0 ≤ t := by omega
      refine ⟨append_tile_rows kBlockN seqlen_k_cache (seqlen_k_cache + seqlen_knew) (t / kBlockN),
        ⟨t / kBlockN, ?_, rfl⟩, ?_⟩
      · rw [mem_revTiles]
        constructor
        · rw [Int.tdiv_eq_ediv hcache (le_of_lt hBc)]
          exact Int.ediv_le_ediv hBc h1
        · rw [Int.ediv_lt_iff_lt_mul hBc]
          calc t < seqlen_k_cache + seqlen_knew := h2
            _ ≤ ceil_div (seqlen_k_cache + seqlen_knew) kBlockN * kBlockN := le_ceil_div_mul hBc
      · rw [append_tile_rows, List.mem_filter]
        constructor
        · simp only [List.mem_map, List.mem_range]
          refine ⟨(t % kBlockN).toNat, ?_, ?_⟩
          · have h3 : t % kBlockN < kBlockN := Int.emod_lt_of_pos t hBc
            have h4 : 0 ≤ t % kBlockN := Int.emod_nonneg t (ne_of_gt hBc)
            omega
          · have h4 : 0 ≤ t % kBlockN := Int.emod_nonneg t (ne_of_gt hBc)
            have h5 := Int.ediv_add_emod t kBlockN
            have h6 : t / kBlockN * kBlockN = kBlockN * (t / kBlockN) := mul_comm _ _
            omega
        · simp only [Bool.and_eq_true, decide_eq_true_eq]
          exact ⟨h1, h2⟩
  · intro k r
    induction k with
    | zero =>
      rw [knew_tile_ptr_walk, row_offset_knew]
      push_cast
      ring
    | succ k ih =>
      rw [knew_tile_ptr_walk]
      have hc : ((k + 1 : ℕ) : ℤ) = (k : ℤ) + 1 := by push_cast; ring
      rw [hc]
      linear_combination ih
  · intro hpos
    have h0 : ¬ rotary_dim = 0 := by omega
    cases is_rotary_interleaved <;> simp [append_copy_kind, h0]
  · intro h0
    simp [append_copy_kind, h0]
  · intro half hhalf k r
    have h2 : rotary_dim.tdiv 2 = half := by
      rw [hhalf]
      exact Int.mul_tdiv_cancel_left half (by norm_num)
    have h3 : (kBlockN * rotary_dim).tdiv 2 = kBlockN * half := by
      rw [hhalf, show kBlockN * (2 * half) = 2 * (kBlockN * half) by ring]
      exact Int.mul_tdiv_cancel_left (kBlockN * half) (by norm_num)
    induction k with
    | zero =>
      rw [k_cossin_ptr_walk, h2]
      push_cast
      ring
    | succ k ih =>
      rw [k_cossin_ptr_walk, h3]
      have hc : ((k + 1 : ℕ) : ℤ) = (k : ℤ) + 1 := by push_cast; ring
      rw [hc]
      rw [h2] at ih ⊢
      linear_combination ih
  · intro i
    rw [q_cossin_addr]
    by_cases h : (Is_causal || Is_local) = true
    · rw [if_pos h, if_pos h, if_pos h]
      ring
    · rw [if_neg h, if_neg h, if_neg h]
      ring

/-- Witness for C8: `kBlockN = 2`, two cached keys, three appended keys,
`rotary_dim = 64` with the interleaved rotary copy. -/
theorem C8_append_kv_witness :
    ((0 : ℤ) < 2 ∧ (0 : ℤ) ≤ 2 ∧ (0 : ℤ) ≤ 3 ∧ (0 : ℤ) < 64 ∧ (64 : ℤ) = 2 * 32) ∧
    ((3 : ℤ) ∈ append_copied_rows 2 2 (2 + 3) ((2 : ℤ).tdiv 2) (ceil_div (2 + 3) 2) ↔
      (2 : ℤ) ≤ 3 ∧ (3 : ℤ) < 2 + 3) ∧
    append_copy_kind 64 true = AppendCopyKind.rotaryInterleaved ∧
    k_cossin_ptr_walk 2 (ceil_div (2 + 3) 2) 64 1 + 1 * (64 : ℤ).tdiv 2 =
      ((ceil_div (2 + 3) 2 - 1 - ((1 : ℕ) : ℤ)) * 2 + 1) * (64 : ℤ).tdiv 2 :=
  ⟨⟨by decide, by decide, by decide, by decide, by decide⟩,
   (C8_append_kv true false true 4 2 2 3 0 64 0 1 0 0 1 (by decide) (by decide) (by decide)).1 3,
   ((C8_append_kv true false true 4 2 2 3 0 64 0 1 0 0 1 (by decide) (by decide)
       (by decide)).2.2.1 (by decide)).trans (by decide),
   (C8_append_kv true false true 4 2 2 3 0 64 0 1 0 0 1 (by decide) (by decide)
       (by decide)).2.2.2.2.1 32 (by decide) 1 1⟩

end FlashSpec
